import Mathlib

/-!
# Verification of the ChordAssumer core

Shallow embedding of the repository's two computational engines:

* `cluster.py` — the segment clusterer (`MPart`, `MPart.sub`, `MPart.add`,
  atomic phase-0 segmentation and the threshold-doubling agglomeration loop);
* `chord.py` / `config.py` / `utils.py` — the chord catalog builder
  (`Chord`), the metrical weight model (`Measure`, `combine_weight`),
  the note weight accumulator (`get_weight`) and the chord match scorer
  (`sort_chord_transpositions`).

Python floats are modelled as exact rationals (`ℚ`), Python ints as `Int`,
dictionaries as insertion-ordered association lists, and raising an
exception as returning `none`.
-/

/-- One row of the `music` DataFrame produced by `utils.get_music`:
columns `step_id`, `start_time`, `duration` and the derived column
`end_time` (the further columns `measure_id`, `beats`, `beat_type` are
only inspected by caller-supplied merge predicates, never by the core). -/
structure MNote where
  step_id : Int
  start_time : Int
  duration : Int
  end_time : Int
deriving DecidableEq, Repr, Inhabited

/-- `cluster.Part`: a contiguous run of notes of one music,
given by the index of its first note, its length in notes, and the
(maximal) end time of its member notes. -/
structure MPart where
  music : List MNote
  start_idx : Nat
  length : Nat
  end_time : Int
deriving DecidableEq, Repr

/-- `MPart.end_idx`: one-past-the-end index. -/
def MPart.end_idx (p : MPart) : Nat :=
  p.start_idx + p.length

/-- `MPart.first`: the first member note (`music.iloc[start_idx]`;
in-bounds whenever the MPart is well formed). -/
def MPart.first (p : MPart) : MNote :=
  p.music.getD p.start_idx default

/-- `MPart.last`: the last member note (`music.iloc[end_idx - 1]`). -/
def MPart.last (p : MPart) : MNote :=
  p.music.getD (p.end_idx - 1) default

/-- `MPart.first_start_time`. -/
def MPart.first_start_time (p : MPart) : Int :=
  p.first.start_time

/-- `MPart.last_start_time`. -/
def MPart.last_start_time (p : MPart) : Int :=
  p.last.start_time

/-- `MPart.is_rest`: whether the first member note is the rest sentinel. -/
def MPart.is_rest (p : MPart) : Bool :=
  p.first.step_id == -1

/-- `Part.__sub__`: the time distance between two Parts; `none` models the
`raise Exception('part overlapped')` branch. -/
def MPart.sub (self other : MPart) : Option Int :=
  if self.first_start_time ≥ other.last_start_time then
    some (self.first_start_time - other.last_start_time)
  else if self.last_start_time ≤ other.first_start_time then
    some (self.last_start_time - other.first_start_time)
  else
    none

/-- `Part.__add__`: merge two sequential parts of the same music; `none`
models a failure of either of the two `assert` statements. -/
def MPart.add (self other : MPart) : Option MPart :=
  if self.music = other.music ∧ self.end_idx = other.start_idx then
    some ⟨self.music, self.start_idx, self.length + other.length,
          max self.end_time other.end_time⟩
  else
    none

/-- `config.BEAT_LCM`. -/
def BEAT_LCM : Nat := 32

/-- One step of the atomic segmentation loop of `cluster` (the first
`for` loop): the freshly built one-note part is merged into the running
last part when they share a start time or are both rests, and appended
otherwise.  The accumulator holds the parts in reverse order
(head = `data[-1]`). -/
def cluster_phase0_step (music : List MNote) (rev : List MPart)
    (p : Nat × MNote) : Option (List MPart) :=
  let part : MPart := ⟨music, p.1, 1, p.2.end_time⟩
  match rev with
  | [] => some [part]
  | last :: tailRev =>
    if part.first_start_time = last.last_start_time
        ∨ (part.is_rest ∧ last.is_rest) then
      (last.add part).map (· :: tailRev)
    else
      some (part :: last :: tailRev)

/-- Phase 0 of `cluster`: build one single-note `MPart` per row and fuse
identical start times and consecutive rests. -/
def cluster_phase0 (music : List MNote) : Option (List MPart) :=
  (music.enum.foldlM (cluster_phase0_step music) []).map List.reverse

/-- One step of an agglomeration pass of `cluster` (the body of the inner
`for part in data` loop).  The accumulator `rev` holds `new_data` in
reverse order (head = `new_data[-1]`). -/
def cluster_pass_step (can_merge : MPart → MPart → Int → List MNote → Bool)
    (music : List MNote) (step_distance : Int) (rev : List MPart)
    (part : MPart) : Option (List MPart) :=
  if part.is_rest then
    some (part :: rev)
  else
    match rev with
    | [] => some [part]
    | [last] =>
      if last.is_rest then
        some (part :: [last])
      else
        (part.sub last).bind fun dist =>
          if dist ≤ step_distance
              ∧ (last.end_time > part.first_start_time
                 ∨ can_merge last part step_distance music = true) then
            (last.add part).map (· :: [])
          else
            some (part :: [last])
    | last :: lm2 :: tailRev =>
      if last.is_rest then
        -- `last_meaningful_idx == -2`: merge across the interposed rest
        (part.sub lm2).bind fun dist =>
          if dist ≤ step_distance
              ∧ (lm2.end_time > part.first_start_time
                 ∨ can_merge lm2 part step_distance music = true) then
            (last.add part).bind fun part' =>
              (lm2.add part').map (· :: tailRev)
          else
            some (part :: last :: lm2 :: tailRev)
      else
        (part.sub last).bind fun dist =>
          if dist ≤ step_distance
              ∧ (last.end_time > part.first_start_time
                 ∨ can_merge last part step_distance music = true) then
            (last.add part).map (· :: lm2 :: tailRev)
          else
            some (part :: last :: lm2 :: tailRev)

/-- One full agglomeration pass of `cluster` at a given threshold. -/
def cluster_pass (can_merge : MPart → MPart → Int → List MNote → Bool)
    (music : List MNote) (step_distance : Int) (data : List MPart) :
    Option (List MPart) :=
  (data.foldlM (cluster_pass_step can_merge music step_distance) []).map
    List.reverse

/-- The `while step_distance <= BEAT_LCM` loop of `cluster`; the fuel is
an upper bound on the number of passes (the threshold doubles from 1, so
`BEAT_LCM + 1` passes can never be reached). -/
def cluster_loop (can_merge : MPart → MPart → Int → List MNote → Bool)
    (music : List MNote) : Nat → Int → List MPart → Option (List MPart)
  | 0, _, data => some data
  | fuel + 1, step_distance, data =>
    if step_distance ≤ (BEAT_LCM : Int) then
      (cluster_pass can_merge music step_distance data).bind
        (cluster_loop can_merge music fuel (step_distance * 2))
    else
      some data

/-- `cluster.cluster`: atomic segmentation followed by the
threshold-doubling agglomeration passes. -/
def cluster (music : List MNote)
    (can_merge : MPart → MPart → Int → List MNote → Bool) :
    Option (List MPart) :=
  (cluster_phase0 music).bind
    (cluster_loop can_merge music (BEAT_LCM + 1) 1)

/-- Partition invariant: `ps` is a list of parts of `music` whose index
ranges are consecutive, the first starting at `a` and the last ending at
`n`, each non-empty. -/
def ChainFrom (music : List MNote) : Nat → List MPart → Nat → Prop
  | a, [], n => a = n
  | a, p :: ps, n =>
    p.music = music ∧ p.start_idx = a ∧ 0 < p.length
      ∧ ChainFrom music (a + p.length) ps n

/-- Partition invariant for a reversed accumulator: `rev.reverse` is a
chain of parts of `music` from index `0` up to `a`. -/
def RevChain (music : List MNote) : List MPart → Nat → Prop
  | [], a => a = 0
  | p :: ps, a =>
    p.music = music ∧ 0 < p.length ∧ p.start_idx + p.length = a
      ∧ RevChain music ps p.start_idx

/-- Notes of `music` at indices at or past the end of `p` start no
earlier than `p.end_time` (so the time-overlap merge disjunct of
`cluster` can never fire against `p`). -/
def PartEndLe (music : List MNote) (p : MPart) : Prop :=
  ∀ j : Nat, p.start_idx + p.length ≤ j → j < music.length →
    p.end_time ≤ (music.getD j default).start_time

/-- `config.CHORDS`: the configured chord qualities (the seventh chords
are commented out in the source). -/
def CHORDS : List (String × List Int) :=
  [("maj3", [0, 4, 7]), ("min3", [0, 3, 7]), ("aug3", [0, 4, 8]),
   ("dim3", [0, 3, 6])]

/-- `chord.Transposition`: one inversion of a chord quality (the
back-reference to the owning chord is kept as its name). -/
structure Transposition where
  chordName : String
  idx : Nat
  order : List Int
deriving DecidableEq, Repr

/-- Python `min` over a list; the `[]` default is never reached since
all configured orders are non-empty. -/
def list_min : List Int → Int
  | [] => 0
  | x :: xs => xs.foldl min x

/-- `Chord.normalize_order`: shift an order so that its minimum is 0. -/
def normalize_order (order : List Int) : List Int :=
  order.map (· - list_min order)

/-- `Chord.transposition`: rotate the lowest tone to the top (plus an
octave) and renormalize. -/
def chord_transposition (order : List Int) : List Int :=
  normalize_order (order.drop 1 ++ [order.headD 0 + 12])

def insert_sorted (x : Int) : List Int → List Int
  | [] => [x]
  | y :: ys => if x ≤ y then x :: y :: ys else y :: insert_sorted x ys

/-- Python `sorted` on a list of ints (ascending insertion sort). -/
def py_sorted (l : List Int) : List Int :=
  l.foldr insert_sorted []

/-- The `for idx in range(len(order))` loop of `Chord.__init__`,
with the loop counter `k` counting the remaining iterations: the key of
the current order is looked up in the global deduplication set; a hit
skips the iteration without advancing the rotation, a miss registers
the key, emits a `Transposition` and rotates. -/
def chord_init_loop (name : String) :
    Nat → Nat → List Int → List (List Int) → List Transposition →
    List Transposition × List (List Int)
  | 0, _, _, dedup, acc => (acc, dedup)
  | k + 1, idx, order, dedup, acc =>
    let key := py_sorted order
    if key ∈ dedup then
      chord_init_loop name k (idx + 1) order dedup acc
    else
      chord_init_loop name k (idx + 1) (chord_transposition order)
        (key :: dedup) (acc ++ [⟨name, idx, order⟩])

/-- `Chord.__init__` for one quality, threading the global dedup set. -/
def chord_init (name : String) (order : List Int)
    (dedup : List (List Int)) : List Transposition × List (List Int) :=
  chord_init_loop name (normalize_order order).length 0
    (normalize_order order) dedup []

/-- `Chord.init` / `Chord.chords`: the catalog built over `CHORDS` in
declaration order with one global deduplication set. -/
def Chord.chords : List (String × List Transposition) :=
  (CHORDS.foldl (fun st p =>
    (st.1 ++ [(p.1, (chord_init p.1 p.2 st.2).1)],
     (chord_init p.1 p.2 st.2).2))
    (([] : List (String × List Transposition)), ([] : List (List Int)))).1

/-- `utils.combine_weight`: outer product of weight profiles, each entry
the product of one weight from each profile, ordered with the first
profile outermost. -/
def combine_weight (weights : List (List ℚ)) : List ℚ :=
  weights.foldr (fun w acc => (w.map fun a => acc.map fun b => a * b).flatten)
    [1]

def _WEIGHT_1 : List ℚ := [1.0]

def _WEIGHT_2 : List ℚ := [0.6, 0.4]

def _WEIGHT_3 : List ℚ := [0.45, 0.3, 0.25]

def _WEIGHT_4 : List ℚ := [0.4, 0.2, 0.3, 0.1]

def _WEIGHT_6 : List ℚ := combine_weight [_WEIGHT_2, _WEIGHT_3]

def _WEIGHT_8 : List ℚ := combine_weight [_WEIGHT_4, _WEIGHT_2]

/-- `config.WEIGHT`: per-beat stress profile of each supported time
signature, keyed by the parsed `beats/beat_type` pair. -/
def WEIGHT : List ((Nat × Nat) × List ℚ) :=
  [((1, 4), _WEIGHT_1), ((4, 4), _WEIGHT_4), ((3, 4), _WEIGHT_3),
   ((2, 4), _WEIGHT_2), ((3, 8), _WEIGHT_3), ((6, 8), _WEIGHT_6)]

/-- `config.WEIGHT_B_INNER`: subdivision stress profile per beat type. -/
def WEIGHT_B_INNER (beat_type : Nat) : List ℚ :=
  if beat_type = 4 then _WEIGHT_8
  else if beat_type = 8 then _WEIGHT_4
  else []

/-- `chord.Measure`. -/
structure Measure where
  pb16 : Nat
  beats : Nat
  length : Nat
  weight : List ℚ
deriving Repr

/-- The per-tick weight array computed in `Measure.init`:
`[w * b for w in original_weight for b in b_inner]`. -/
def Measure.combined (beat_type : Nat) (original_weight : List ℚ) :
    List ℚ :=
  (original_weight.map fun w =>
    (WEIGHT_B_INNER beat_type).map fun b => w * b).flatten

/-- The `Measure` constructed by `Measure.init` for one signature. -/
def Measure.make (beats beat_type : Nat) (original_weight : List ℚ) :
    Measure :=
  ⟨BEAT_LCM / beat_type, beats, beats * (BEAT_LCM / beat_type),
    Measure.combined beat_type original_weight⟩

/-- `Measure.measures`: all supported measures, keyed by signature. -/
def Measure.measures : List ((Nat × Nat) × Measure) :=
  WEIGHT.map fun p => (p.1, Measure.make p.1.1 p.1.2 p.2)

/-- Python list indexing: non-negative in-bounds indices map directly,
negative indices larger than `-n` wrap from the end, anything else
raises `IndexError` (modelled as `none`). -/
def py_index (n : Nat) (i : Int) : Option Nat :=
  if 0 ≤ i ∧ i < (n : Int) then some i.toNat
  else if -(n : Int) ≤ i ∧ i < 0 then some ((n : Int) + i).toNat
  else none

/-- Python `range(a, b)` over ints. -/
def int_range (a b : Int) : List Int :=
  (List.range (b - a).toNat).map fun k : Nat => a + (k : Int)

/-- `used_weight[i].append(note.step_id)` in `get_weight`. -/
def append_at (uw : List (List Int)) (i : Int) (step : Int) :
    Option (List (List Int)) :=
  (py_index uw.length i).map fun k => uw.set k (uw.getD k [] ++ [step])

/-- The first loop of `get_weight`: for every non-rest note, append its
pitch to the tick lists of `[start_time, start_time + duration)`. -/
def used_weight_of (n : Nat) (notes : List MNote) :
    Option (List (List Int)) :=
  notes.foldlM (fun uw note =>
    if note.step_id = -1 then some uw
    else (int_range note.start_time
        (note.start_time + note.duration)).foldlM
      (fun uw2 i => append_at uw2 i note.step_id) uw)
    (List.replicate n [])

/-- `note_weight[step] += piece` on the insertion-ordered dict. -/
def add_weight (k : Int) (v : ℚ) : List (Int × ℚ) → List (Int × ℚ)
  | [] => [(k, v)]
  | (k', v') :: p => if k' = k then (k', v' + v) :: p
      else (k', v') :: add_weight k v p

/-- The second loop of `get_weight`: each tick with a non-empty sounding
set splits its weight evenly across the sounding pitches; empty ticks
contribute nothing. -/
def note_weight_of (mw : List ℚ) (uw : List (List Int)) :
    List (Int × ℚ) :=
  (mw.zip uw).foldl (fun nw p =>
    if p.2 = [] then nw
    else p.2.foldl (fun nw2 step =>
      add_weight step (p.1 / (p.2.length : ℚ)) nw2) nw)
    []

/-- `chord.get_weight`, with the measure's weight array and note list
passed explicitly; `none` models an uncaught `IndexError`. -/
def get_weight (mw : List ℚ) (notes : List MNote) :
    Option (List (Int × ℚ)) :=
  (used_weight_of mw.length notes).map (note_weight_of mw)

/-- Total accumulated weight of a WeightProfile. -/
def profile_total (nw : List (Int × ℚ)) : ℚ :=
  (nw.map fun p => p.2).sum

/-- A tick is covered when some non-rest note's interval contains it. -/
def TickCovered (notes : List MNote) (k : Nat) : Prop :=
  ∃ m ∈ notes, m.step_id ≠ -1 ∧ m.start_time ≤ (k : Int)
    ∧ (k : Int) < m.start_time + m.duration

/-- Python `max` over a non-empty list. -/
def list_max : List Int → Int
  | [] => 0
  | x :: xs => xs.foldl max x

/-- One entry of the scorer's result list: chord reference (by name),
absolute root pitch, aggregated weight and contributing inversions. -/
structure Assumption where
  chordName : String
  root : Int
  weight : ℚ
  trans : List Nat
deriving DecidableEq, Repr

/-- Python `note_weight.get(key, 0.0)` on the insertion-ordered dict. -/
def nw_get : List (Int × ℚ) → Int → ℚ
  | [], _ => 0
  | p :: tl, k => if p.1 = k then p.2 else nw_get tl k

/-- The `weight += note_weight.get(offset + step, 0.0)` accumulation of
`sort_chord_transpositions` over a transposition's order. -/
def trans_weight (nw : List (Int × ℚ)) (order : List Int)
    (offset : Int) : ℚ :=
  order.foldl (fun w s => w + nw_get nw (offset + s)) 0

/-- Python `order[-idx]` (negative indexing; `order[0]` for idx 0). -/
def order_neg_idx (order : List Int) (idx : Nat) : Int :=
  if idx = 0 then order.headD 0 else order.getD (order.length - idx) 0

/-- `to_be_merged[key]['trans'].append(trans.idx)` or fresh insertion:
the key is the `f'{root}|{weight}'` pair, the stored Assumption is
updated in place. -/
def upsert_assumption (key : Int × ℚ) (chName : String) (idx : Nat) :
    List ((Int × ℚ) × Assumption) → List ((Int × ℚ) × Assumption)
  | [] => [(key, ⟨chName, key.1, key.2, [idx]⟩)]
  | e :: tl =>
    if e.1 = key then
      (e.1, ⟨e.2.chordName, e.2.root, e.2.weight, e.2.trans ++ [idx]⟩) :: tl
    else
      e :: upsert_assumption key chName idx tl

/-- The per-chord loops of `sort_chord_transpositions`: for every
transposition and every offset in
`range(min_step - order[-1], max_step + 1)`, a strictly positive total
weight records an Assumption keyed by (root, weight), merging equal
keys.  The chord's contribution to `result` is the insertion-ordered
list of merged Assumptions. -/
def score_chord (nw : List (Int × ℚ)) (min_step max_step : Int)
    (trs : List Transposition) : List Assumption :=
  (trs.foldl (fun m t =>
    (int_range (min_step - t.order.getLastD 0) (max_step + 1)).foldl
      (fun m2 offset =>
        if 0 < trans_weight nw t.order offset then
          upsert_assumption
            (offset + order_neg_idx t.order t.idx,
              trans_weight nw t.order offset)
            t.chordName t.idx m2
        else m2) m) []).map fun e => e.2

/-- Stable insertion into a weight-descending list: the new element goes
after all elements of at least its weight (Python's stable
`sort(key=weight, reverse=True)`). -/
def insert_desc (a : Assumption) : List Assumption → List Assumption
  | [] => [a]
  | b :: tl => if b.weight < a.weight then a :: b :: tl
      else b :: insert_desc a tl

/-- Stable descending sort by weight. -/
def sort_desc (l : List Assumption) : List Assumption :=
  l.foldl (fun acc a => insert_desc a acc) []

/-- `chord.sort_chord_transpositions`: `none` models the `ValueError`
raised by `min(note_weight.keys())` on an empty profile. -/
def sort_chord_transpositions (nw : List (Int × ℚ)) :
    Option (List Assumption) :=
  match nw with
  | [] => none
  | _ :: _ =>
    some (sort_desc ((Chord.chords.map fun ch =>
      score_chord nw (list_min (nw.map Prod.fst))
        (list_max (nw.map Prod.fst)) ch.2).flatten))

/-- Concrete check for the scorer on the unit-weight 0-4-7 profile: the
first ranked Assumption is the root-position major triad at pitch 0 and
every later entry has strictly smaller weight. -/
def c7_check (res : Option (List Assumption)) : Bool :=
  match res with
  | some (top :: tl) =>
    decide (top = ⟨"maj3", 0, 3, [0]⟩)
      && tl.all fun a => decide (a.weight < 3)
  | _ => false

/-- Scaling every value of a WeightProfile by `c`. -/
def scale_profile (c : ℚ) (nw : List (Int × ℚ)) : List (Int × ℚ) :=
  nw.map fun p => (p.1, c * p.2)

/-- Scaling an Assumption's weight by `c`. -/
def scale_assumption (c : ℚ) (a : Assumption) : Assumption :=
  ⟨a.chordName, a.root, c * a.weight, a.trans⟩

/-- Scaling one `to_be_merged` entry by `c`. -/
def scale_entry (c : ℚ) (e : (Int × ℚ) × Assumption) :
    (Int × ℚ) × Assumption :=
  ((e.1.1, c * e.1.2), scale_assumption c e.2)

/-- C3 (counterexample): two Parts whose time spans taken from first
start time to end time overlap (`[0,10]` and `[5,6]`), yet `Part.__sub__`
returns the number `5` instead of raising: the code compares start times
only, never `end_time`. -/
theorem part_sub_overlap_counterexample :
    (MPart.first_start_time ⟨[⟨1,0,10,10⟩, ⟨2,5,1,6⟩], 0, 1, 10⟩
        < MPart.end_time ⟨[⟨1,0,10,10⟩, ⟨2,5,1,6⟩], 1, 1, 6⟩)
    ∧ (MPart.first_start_time ⟨[⟨1,0,10,10⟩, ⟨2,5,1,6⟩], 1, 1, 6⟩
        < MPart.end_time ⟨[⟨1,0,10,10⟩, ⟨2,5,1,6⟩], 0, 1, 10⟩)
    ∧ MPart.sub ⟨[⟨1,0,10,10⟩, ⟨2,5,1,6⟩], 1, 1, 6⟩
        ⟨[⟨1,0,10,10⟩, ⟨2,5,1,6⟩], 0, 1, 10⟩ = some 5 := by
  decide

/-- C3 (amended): `Part.__sub__` raises (`none`) exactly when the two
parts' start-time spans `[first_start_time, last_start_time]` strictly
overlap; it returns a number whenever those start-time spans are
disjoint.  The `end_time` of the parts plays no role. -/
theorem part_sub_none_iff (p q : MPart) :
    p.sub q = none ↔
      p.first_start_time < q.last_start_time
        ∧ q.first_start_time < p.last_start_time := by
  unfold MPart.sub
  split_ifs with h1 h2 <;> simp <;> omega

theorem chainFrom_le {music : List MNote} :
    ∀ {ps : List MPart} {a n : Nat}, ChainFrom music a ps n → a ≤ n := by
  intro ps
  induction ps with
  | nil => intro a n h; exact le_of_eq h
  | cons p ps ih =>
    intro a n h
    have := ih h.2.2.2
    omega

theorem chainFrom_append {music : List MNote} :
    ∀ {xs ys : List MPart} {a m n : Nat},
      ChainFrom music a xs m → ChainFrom music m ys n
        → ChainFrom music a (xs ++ ys) n := by
  intro xs
  induction xs with
  | nil =>
    intro ys a m n h1 h2
    have h : a = m := h1
    subst h
    simpa using h2
  | cons p xs ih =>
    intro ys a m n h1 h2
    exact ⟨h1.1, h1.2.1, h1.2.2.1, ih h1.2.2.2 h2⟩

theorem revChain_reverse {music : List MNote} :
    ∀ {rev : List MPart} {a : Nat}, RevChain music rev a
      → ChainFrom music 0 rev.reverse a := by
  intro rev
  induction rev with
  | nil =>
    intro a h
    have h0 : a = 0 := h
    subst h0
    exact rfl
  | cons p ps ih =>
    intro a h
    have h1 : ChainFrom music 0 ps.reverse p.start_idx := ih h.2.2.2
    have h2 : ChainFrom music p.start_idx [p] a := by
      refine ⟨h.1, rfl, h.2.1, ?_⟩
      show ChainFrom music (p.start_idx + p.length) [] a
      exact h.2.2.1
    simpa using chainFrom_append h1 h2

theorem sorted_getD {music : List MNote}
    (hs : music.Pairwise fun x y => x.start_time ≤ y.start_time)
    {i j : Nat} (hij : i ≤ j) (hj : j < music.length) :
    (music.getD i default).start_time ≤ (music.getD j default).start_time := by
  rcases eq_or_lt_of_le hij with rfl | hlt
  · exact le_refl _
  · rw [List.getD_eq_getElem _ _ (lt_trans hlt hj), List.getD_eq_getElem _ _ hj]
    exact List.pairwise_iff_getElem.mp hs i j (lt_trans hlt hj) hj hlt

theorem cluster_phase0_aux (music : List MNote) :
    ∀ (notes : List MNote) (a : Nat) (rev : List MPart),
      RevChain music rev a →
      ∃ rev', (List.enumFrom a notes).foldlM (cluster_phase0_step music) rev
          = some rev'
        ∧ RevChain music rev' (a + notes.length) := by
  intro notes
  induction notes with
  | nil =>
    intro a rev h
    exact ⟨rev, rfl, by simpa using h⟩
  | cons note notes ih =>
    intro a rev h
    rw [List.enumFrom_cons, List.foldlM_cons]
    have harith : ∀ m : Nat, a + 1 + m = a + (m + 1) := by omega
    match rev with
    | [] =>
      have h0 : a = 0 := h
      obtain ⟨rev', h1, h2⟩ := ih (a + 1) [⟨music, a, 1, note.end_time⟩]
        ⟨rfl, one_pos, rfl, h0⟩
      refine ⟨rev', ?_, by simp only [List.length_cons]; rw [← harith]; exact h2⟩
      show ((some [⟨music, a, 1, note.end_time⟩] : Option (List MPart)) >>=
        fun init => (List.enumFrom (a + 1) notes).foldlM
          (cluster_phase0_step music) init) = some rev'
      simpa using h1
    | last :: tailRev =>
      obtain ⟨hm, hlen, hend, htail⟩ := h
      have hstepval : cluster_phase0_step music (last :: tailRev) (a, note)
          = if (MPart.first_start_time ⟨music, a, 1, note.end_time⟩
                = last.last_start_time)
              ∨ (MPart.is_rest ⟨music, a, 1, note.end_time⟩ = true
                 ∧ last.is_rest = true) then
              (last.add ⟨music, a, 1, note.end_time⟩).map (· :: tailRev)
            else
              some (⟨music, a, 1, note.end_time⟩ :: last :: tailRev) := rfl
      by_cases hcond : (MPart.first_start_time ⟨music, a, 1, note.end_time⟩
            = last.last_start_time)
          ∨ (MPart.is_rest ⟨music, a, 1, note.end_time⟩ = true
             ∧ last.is_rest = true)
      · have hadd : last.add ⟨music, a, 1, note.end_time⟩
            = some ⟨last.music, last.start_idx, last.length + 1,
                max last.end_time note.end_time⟩ := by
          unfold MPart.add
          rw [if_pos ⟨by rw [hm], by simpa [MPart.end_idx] using hend⟩]
        rw [hstepval, if_pos hcond, hadd]
        obtain ⟨rev', h1, h2⟩ := ih (a + 1)
          (⟨last.music, last.start_idx, last.length + 1,
              max last.end_time note.end_time⟩ :: tailRev)
          ⟨hm, Nat.succ_pos _, show last.start_idx + (last.length + 1) = a + 1
            by omega, htail⟩
        refine ⟨rev', by simpa using h1, by simp only [List.length_cons]; rw [← harith]; exact h2⟩
      · rw [hstepval, if_neg hcond]
        obtain ⟨rev', h1, h2⟩ := ih (a + 1)
          (⟨music, a, 1, note.end_time⟩ :: last :: tailRev)
          ⟨rfl, one_pos, rfl, hm, hlen, hend, htail⟩
        refine ⟨rev', by simpa using h1, by simp only [List.length_cons]; rw [← harith]; exact h2⟩

theorem cluster_phase0_chain (music : List MNote) :
    ∃ ps, cluster_phase0 music = some ps
      ∧ ChainFrom music 0 ps music.length := by
  obtain ⟨rev', h1, h2⟩ := cluster_phase0_aux music music 0 [] rfl
  refine ⟨rev'.reverse, ?_, ?_⟩
  · unfold cluster_phase0
    rw [List.enum_eq_enumFrom, h1]
    rfl
  · exact revChain_reverse (by simpa using h2)

theorem part_add_some (p q : MPart) (hm : p.music = q.music)
    (he : p.end_idx = q.start_idx) :
    p.add q = some ⟨p.music, p.start_idx, p.length + q.length,
      max p.end_time q.end_time⟩ := by
  unfold MPart.add
  rw [if_pos ⟨hm, he⟩]

theorem part_sub_of_sorted {music : List MNote}
    (hs : music.Pairwise fun x y => x.start_time ≤ y.start_time)
    {p q : MPart} (hpm : p.music = music) (hqm : q.music = music)
    (hij : q.start_idx + q.length - 1 ≤ p.start_idx)
    (hj : p.start_idx < music.length) :
    p.sub q = some (p.first_start_time - q.last_start_time) := by
  unfold MPart.sub
  rw [if_pos]
  show q.last_start_time ≤ p.first_start_time
  unfold MPart.last_start_time MPart.first_start_time MPart.last MPart.first
    MPart.end_idx
  rw [hpm, hqm]
  exact sorted_getD hs hij hj

theorem cluster_pass_step_chain {music : List MNote}
    (hs : music.Pairwise fun x y => x.start_time ≤ y.start_time)
    (f : MPart → MPart → Int → List MNote → Bool) (d : Int)
    {part : MPart} {c : Nat} {rev : List MPart}
    (hpm : part.music = music) (hps : part.start_idx = c)
    (hpl : 0 < part.length) (hle : c + part.length ≤ music.length)
    (hr : RevChain music rev c) :
    ∃ rev₂, cluster_pass_step f music d rev part = some rev₂
      ∧ RevChain music rev₂ (c + part.length) := by
  by_cases hrest : part.is_rest = true
  · refine ⟨part :: rev, ?_, hpm, hpl, by omega, hps ▸ hr⟩
    unfold cluster_pass_step
    rw [if_pos hrest]
  · match rev with
    | [] =>
      have h0 : c = 0 := hr
      refine ⟨[part], ?_, hpm, hpl, by omega,
        show part.start_idx = 0 by omega⟩
      have : cluster_pass_step f music d [] part = some [part] := by
        unfold cluster_pass_step
        rw [if_neg hrest]
      exact this
    | [last] =>
      obtain ⟨hlm, hll, hlend, hltail⟩ := hr
      have hl0 : last.start_idx = 0 := hltail
      have hstepval : cluster_pass_step f music d [last] part
          = if last.is_rest = true then
              some (part :: [last])
            else
              (part.sub last).bind fun dist =>
                if dist ≤ d
                    ∧ (last.end_time > part.first_start_time
                       ∨ f last part d music = true) then
                  (last.add part).map (· :: [])
                else
                  some (part :: [last]) := by
        unfold cluster_pass_step
        rw [if_neg hrest]
      by_cases hlr : last.is_rest = true
      · refine ⟨part :: [last], ?_, hpm, hpl, by omega,
          hps ▸ ⟨hlm, hll, hlend, hltail⟩⟩
        rw [hstepval, if_pos hlr]
      · have hsub := part_sub_of_sorted hs hpm hlm
          (show last.start_idx + last.length - 1 ≤ part.start_idx by omega)
          (show part.start_idx < music.length by omega)
        rw [hstepval, if_neg hlr, hsub]
        by_cases hcond : part.first_start_time - last.last_start_time ≤ d
            ∧ (last.end_time > part.first_start_time
               ∨ f last part d music = true)
        · have hadd := part_add_some last part
            (by rw [hlm, hpm]) (show last.end_idx = part.start_idx by
              unfold MPart.end_idx; omega)
          refine ⟨[⟨last.music, last.start_idx, last.length + part.length,
            max last.end_time part.end_time⟩], ?_, ?_⟩
          · show (if part.first_start_time - last.last_start_time ≤ d
                ∧ (last.end_time > part.first_start_time
                   ∨ f last part d music = true) then
                  (last.add part).map (· :: [])
                else some (part :: [last])) = _
            rw [if_pos hcond, hadd]
            rfl
          · exact ⟨(by rw [hlm]),
              show 0 < last.length + part.length by omega,
              show last.start_idx + (last.length + part.length)
                  = c + part.length by omega,
              show last.start_idx = 0 from hl0⟩
        · refine ⟨part :: [last], ?_, hpm, hpl, by omega,
            hps ▸ ⟨hlm, hll, hlend, hltail⟩⟩
          show (if part.first_start_time - last.last_start_time ≤ d
              ∧ (last.end_time > part.first_start_time
                 ∨ f last part d music = true) then
                (last.add part).map (· :: [])
              else some (part :: [last])) = _
          rw [if_neg hcond]
    | last :: lm2 :: tailRev =>
      obtain ⟨hlm, hll, hlend, hr2⟩ := hr
      obtain ⟨hlm2, hll2, hlend2, htail2⟩ := hr2
      have hstepval : cluster_pass_step f music d (last :: lm2 :: tailRev) part
          = if last.is_rest = true then
              (part.sub lm2).bind fun dist =>
                if dist ≤ d
                    ∧ (lm2.end_time > part.first_start_time
                       ∨ f lm2 part d music = true) then
                  (last.add part).bind fun part' =>
                    (lm2.add part').map (· :: tailRev)
                else
                  some (part :: last :: lm2 :: tailRev)
            else
              (part.sub last).bind fun dist =>
                if dist ≤ d
                    ∧ (last.end_time > part.first_start_time
                       ∨ f last part d music = true) then
                  (last.add part).map (· :: lm2 :: tailRev)
                else
                  some (part :: last :: lm2 :: tailRev) := by
        unfold cluster_pass_step
        rw [if_neg hrest]
      by_cases hlr : last.is_rest = true
      · have hsub := part_sub_of_sorted hs hpm hlm2
          (show lm2.start_idx + lm2.length - 1 ≤ part.start_idx by omega)
          (show part.start_idx < music.length by omega)
        rw [hstepval, if_pos hlr, hsub]
        by_cases hcond : part.first_start_time - lm2.last_start_time ≤ d
            ∧ (lm2.end_time > part.first_start_time
               ∨ f lm2 part d music = true)
        · have hadd1 := part_add_some last part
            (by rw [hlm, hpm]) (show last.end_idx = part.start_idx by
              unfold MPart.end_idx; omega)
          have hadd2 := part_add_some
            lm2
            ⟨last.music, last.start_idx, last.length + part.length,
              max last.end_time part.end_time⟩
            (by rw [hlm2, hlm]) (show lm2.end_idx = last.start_idx by
              unfold MPart.end_idx; omega)
          refine ⟨⟨lm2.music, lm2.start_idx,
              lm2.length + (last.length + part.length),
              max lm2.end_time (max last.end_time part.end_time)⟩ :: tailRev,
            ?_, ?_⟩
          · show (if part.first_start_time - lm2.last_start_time ≤ d
                ∧ (lm2.end_time > part.first_start_time
                   ∨ f lm2 part d music = true) then
                  (last.add part).bind fun part' =>
                    (lm2.add part').map (· :: tailRev)
                else some (part :: last :: lm2 :: tailRev)) = _
            rw [if_pos hcond, hadd1]
            show (lm2.add ⟨last.music, last.start_idx,
                last.length + part.length,
                max last.end_time part.end_time⟩).map (· :: tailRev) = _
            rw [hadd2]
            rfl
          · exact ⟨(by rw [hlm2]),
              show 0 < lm2.length + (last.length + part.length) by omega,
              show lm2.start_idx + (lm2.length + (last.length + part.length))
                  = c + part.length by omega,
              htail2⟩
        · refine ⟨part :: last :: lm2 :: tailRev, ?_, hpm, hpl, by omega,
            hps ▸ ⟨hlm, hll, hlend, hlm2, hll2, hlend2, htail2⟩⟩
          show (if part.first_start_time - lm2.last_start_time ≤ d
              ∧ (lm2.end_time > part.first_start_time
                 ∨ f lm2 part d music = true) then
                (last.add part).bind fun part' =>
                  (lm2.add part').map (· :: tailRev)
              else some (part :: last :: lm2 :: tailRev)) = _
          rw [if_neg hcond]
      · have hsub := part_sub_of_sorted hs hpm hlm
          (show last.start_idx + last.length - 1 ≤ part.start_idx by omega)
          (show part.start_idx < music.length by omega)
        rw [hstepval, if_neg hlr, hsub]
        by_cases hcond : part.first_start_time - last.last_start_time ≤ d
            ∧ (last.end_time > part.first_start_time
               ∨ f last part d music = true)
        · have hadd := part_add_some last part
            (by rw [hlm, hpm]) (show last.end_idx = part.start_idx by
              unfold MPart.end_idx; omega)
          refine ⟨⟨last.music, last.start_idx, last.length + part.length,
              max last.end_time part.end_time⟩ :: lm2 :: tailRev, ?_, ?_⟩
          · show (if part.first_start_time - last.last_start_time ≤ d
                ∧ (last.end_time > part.first_start_time
                   ∨ f last part d music = true) then
                  (last.add part).map (· :: lm2 :: tailRev)
                else some (part :: last :: lm2 :: tailRev)) = _
            rw [if_pos hcond, hadd]
            rfl
          · exact ⟨(by rw [hlm]),
              show 0 < last.length + part.length by omega,
              show last.start_idx + (last.length + part.length)
                  = c + part.length by omega,
              hlm2, hll2, hlend2, htail2⟩
        · refine ⟨part :: last :: lm2 :: tailRev, ?_, hpm, hpl, by omega,
            hps ▸ ⟨hlm, hll, hlend, hlm2, hll2, hlend2, htail2⟩⟩
          show (if part.first_start_time - last.last_start_time ≤ d
              ∧ (last.end_time > part.first_start_time
                 ∨ f last part d music = true) then
                (last.add part).map (· :: lm2 :: tailRev)
              else some (part :: last :: lm2 :: tailRev)) = _
          rw [if_neg hcond]

theorem cluster_pass_fold {music : List MNote}
    (hs : music.Pairwise fun x y => x.start_time ≤ y.start_time)
    (f : MPart → MPart → Int → List MNote → Bool) (d : Int) :
    ∀ (parts : List MPart) (c : Nat) (rev : List MPart),
      ChainFrom music c parts music.length → RevChain music rev c →
      ∃ rev', parts.foldlM (cluster_pass_step f music d) rev = some rev'
        ∧ RevChain music rev' music.length := by
  intro parts
  induction parts with
  | nil =>
    intro c rev hc hr
    have : c = music.length := hc
    subst this
    exact ⟨rev, rfl, hr⟩
  | cons part parts ih =>
    intro c rev hc hr
    obtain ⟨hpm, hps, hpl, hchain⟩ := hc
    have hle : c + part.length ≤ music.length := chainFrom_le hchain
    obtain ⟨rev₂, hstep, hr₂⟩ :=
      cluster_pass_step_chain hs f d hpm hps hpl hle hr
    obtain ⟨rev', h1, h2⟩ := ih (c + part.length) rev₂ hchain hr₂
    refine ⟨rev', ?_, h2⟩
    rw [List.foldlM_cons, hstep]
    simpa using h1

theorem cluster_pass_chain {music : List MNote}
    (hs : music.Pairwise fun x y => x.start_time ≤ y.start_time)
    (f : MPart → MPart → Int → List MNote → Bool) (d : Int)
    {data : List MPart} (hc : ChainFrom music 0 data music.length) :
    ∃ data', cluster_pass f music d data = some data'
      ∧ ChainFrom music 0 data' music.length := by
  obtain ⟨rev', h1, h2⟩ := cluster_pass_fold hs f d data 0 [] hc rfl
  refine ⟨rev'.reverse, ?_, revChain_reverse h2⟩
  unfold cluster_pass
  rw [h1]
  rfl

theorem cluster_loop_chain {music : List MNote}
    (hs : music.Pairwise fun x y => x.start_time ≤ y.start_time)
    (f : MPart → MPart → Int → List MNote → Bool) :
    ∀ (fuel : Nat) (d : Int) (data : List MPart),
      ChainFrom music 0 data music.length →
      ∃ out, cluster_loop f music fuel d data = some out
        ∧ ChainFrom music 0 out music.length := by
  intro fuel
  induction fuel with
  | zero => intro d data hc; exact ⟨data, rfl, hc⟩
  | succ fuel ih =>
    intro d data hc
    by_cases hd : d ≤ (BEAT_LCM : Int)
    · obtain ⟨data', h1, h2⟩ := cluster_pass_chain hs f d hc
      obtain ⟨out, h3, h4⟩ := ih (d * 2) data' h2
      refine ⟨out, ?_, h4⟩
      show cluster_loop f music (fuel + 1) d data = some out
      unfold cluster_loop
      rw [if_pos hd, h1]
      simpa using h3
    · refine ⟨data, ?_, hc⟩
      show cluster_loop f music (fuel + 1) d data = some data
      unfold cluster_loop
      rw [if_neg hd]

theorem chainFrom_join_range {music : List MNote} :
    ∀ {ps : List MPart} {a n : Nat}, ChainFrom music a ps n →
      (ps.map fun p => List.range' p.start_idx p.length).flatten
        = List.range' a (n - a) := by
  intro ps
  induction ps with
  | nil =>
    intro a n h
    have : a = n := h
    subst this
    simp
  | cons p ps ih =>
    intro a n h
    obtain ⟨hm, hstart, hlen, hchain⟩ := h
    have hle : a + p.length ≤ n := chainFrom_le hchain
    rw [List.map_cons, List.flatten_cons, ih hchain, hstart]
    have := List.range'_append a p.length (n - (a + p.length)) 1
    rw [one_mul] at this
    rw [show n - a = n - (a + p.length) + p.length by omega, ← this]

/-- C1: for every input note sequence ordered by start time and every
merge predicate, `cluster` returns (without raising) a list of Parts
that exactly partitions the input: the parts' index ranges are
consecutive, starting at 0 and ending at the input length, and
concatenating their member note indices in order reproduces
`0, 1, ..., length - 1` exactly. -/
theorem cluster_partitions (music : List MNote)
    (can_merge : MPart → MPart → Int → List MNote → Bool)
    (hs : music.Pairwise fun x y => x.start_time ≤ y.start_time) :
    ∃ ps, cluster music can_merge = some ps
      ∧ ChainFrom music 0 ps music.length
      ∧ (ps.map fun p => List.range' p.start_idx p.length).flatten
          = List.range music.length := by
  obtain ⟨ps₀, h1, h2⟩ := cluster_phase0_chain music
  obtain ⟨out, h3, h4⟩ := cluster_loop_chain hs can_merge (BEAT_LCM + 1) 1 ps₀ h2
  refine ⟨out, ?_, h4, ?_⟩
  · show (cluster_phase0 music).bind
      (cluster_loop can_merge music (BEAT_LCM + 1) 1) = some out
    rw [h1, Option.some_bind]
    exact h3
  · rw [chainFrom_join_range h4, List.range_eq_range', Nat.sub_zero]

/-- C1 witness: the partition theorem applied to a concrete two-note
music and the always-true predicate. -/
theorem cluster_partitions_witness :
    ∃ ps, cluster [⟨1, 0, 4, 4⟩, ⟨-1, 6, 2, 8⟩] (fun _ _ _ _ => true) = some ps
      ∧ ChainFrom [⟨1, 0, 4, 4⟩, ⟨-1, 6, 2, 8⟩] 0 ps 2
      ∧ (ps.map fun p => List.range' p.start_idx p.length).flatten
          = List.range 2 :=
  cluster_partitions [⟨1, 0, 4, 4⟩, ⟨-1, 6, 2, 8⟩] (fun _ _ _ _ => true)
    (by decide)

/-- C4 (counterexample): with the always-false predicate the
agglomeration passes still merge two time-overlapping parts through the
`last_meaningful_part.end_time > part.first_start_time` disjunct: on the
two-note music `[⟨1,0,10,10⟩, ⟨1,1,1,2⟩]` phase 0 yields two parts but
`cluster` returns a single merged part. -/
theorem cluster_false_pred_counterexample :
    cluster [⟨1, 0, 10, 10⟩, ⟨1, 1, 1, 2⟩] (fun _ _ _ _ => false)
        = some [⟨[⟨1, 0, 10, 10⟩, ⟨1, 1, 1, 2⟩], 0, 2, 10⟩]
    ∧ cluster_phase0 [⟨1, 0, 10, 10⟩, ⟨1, 1, 1, 2⟩]
        = some [⟨[⟨1, 0, 10, 10⟩, ⟨1, 1, 1, 2⟩], 0, 1, 10⟩,
                ⟨[⟨1, 0, 10, 10⟩, ⟨1, 1, 1, 2⟩], 1, 1, 2⟩] := by
  constructor
  · decide
  · decide

theorem disjoint_getD {music : List MNote}
    (hd : music.Pairwise fun x y => x.end_time ≤ y.start_time)
    {i j : Nat} (hij : i < j) (hj : j < music.length) :
    (music.getD i default).end_time ≤ (music.getD j default).start_time := by
  rw [List.getD_eq_getElem _ _ (lt_trans hij hj), List.getD_eq_getElem _ _ hj]
  exact List.pairwise_iff_getElem.mp hd i j (lt_trans hij hj) hj hij

theorem cluster_phase0_aux_endle (music : List MNote)
    (hd : music.Pairwise fun x y => x.end_time ≤ y.start_time) :
    ∀ (notes : List MNote) (a : Nat) (rev : List MPart),
      music.drop a = notes →
      RevChain music rev a → (∀ p ∈ rev, PartEndLe music p) →
      ∃ rev', (List.enumFrom a notes).foldlM (cluster_phase0_step music) rev
          = some rev'
        ∧ RevChain music rev' (a + notes.length)
        ∧ ∀ p ∈ rev', PartEndLe music p := by
  intro notes
  induction notes with
  | nil =>
    intro a rev _ h hE
    exact ⟨rev, rfl, by simpa using h, hE⟩
  | cons note notes ih =>
    intro a rev hdrop h hE
    have ha : a < music.length := by
      by_contra hcon
      rw [List.drop_eq_nil_of_le (le_of_not_lt hcon)] at hdrop
      exact List.cons_ne_nil _ _ hdrop.symm
    have hnote : music.getD a default = note := by
      rw [List.getD_eq_getElem?_getD]
      have h10 : music[a + 0]? = (music.drop a)[0]?
        := (List.getElem?_drop music a 0).symm
      rw [hdrop, Nat.add_zero] at h10
      rw [h10]
      simp
    have hdrop' : music.drop (a + 1) = notes := by
      have h9 := List.drop_drop 1 a music
      rw [hdrop] at h9
      simpa using h9.symm
    have hnewE : PartEndLe music ⟨music, a, 1, note.end_time⟩ := by
      intro j hj1 hj2
      have hj1' : a + 1 ≤ j := hj1
      have h9 := disjoint_getD hd (show a < j by omega) hj2
      rw [hnote] at h9
      exact h9
    rw [List.enumFrom_cons, List.foldlM_cons]
    have harith : ∀ m : Nat, a + 1 + m = a + (m + 1) := by omega
    rcases rev with _ | ⟨last, tailRev⟩
    · have h0 : a = 0 := h
      obtain ⟨rev', h1, h2, h3⟩ := ih (a + 1) [⟨music, a, 1, note.end_time⟩]
        hdrop' ⟨rfl, one_pos, rfl, h0⟩ (by
          intro p hp
          rw [List.mem_singleton] at hp
          subst hp
          exact hnewE)
      refine ⟨rev', ?_,
        (by simp only [List.length_cons]; rw [← harith]; exact h2), h3⟩
      show ((some [⟨music, a, 1, note.end_time⟩] : Option (List MPart)) >>=
        fun init => (List.enumFrom (a + 1) notes).foldlM
          (cluster_phase0_step music) init) = some rev'
      simpa using h1
    · obtain ⟨hm, hlen, hend, htail⟩ := h
      have hstepval : cluster_phase0_step music (last :: tailRev) (a, note)
          = if (MPart.first_start_time ⟨music, a, 1, note.end_time⟩
                = last.last_start_time)
              ∨ (MPart.is_rest ⟨music, a, 1, note.end_time⟩ = true
                 ∧ last.is_rest = true) then
              (last.add ⟨music, a, 1, note.end_time⟩).map (· :: tailRev)
            else
              some (⟨music, a, 1, note.end_time⟩ :: last :: tailRev) := rfl
      by_cases hcond : (MPart.first_start_time ⟨music, a, 1, note.end_time⟩
            = last.last_start_time)
          ∨ (MPart.is_rest ⟨music, a, 1, note.end_time⟩ = true
             ∧ last.is_rest = true)
      · have hadd : last.add ⟨music, a, 1, note.end_time⟩
            = some ⟨last.music, last.start_idx, last.length + 1,
                max last.end_time note.end_time⟩ := by
          unfold MPart.add
          rw [if_pos ⟨by rw [hm], by simpa [MPart.end_idx] using hend⟩]
        rw [hstepval, if_pos hcond, hadd]
        have hlastE : PartEndLe music last := hE last (List.mem_cons_self _ _)
        have hmergedE : PartEndLe music ⟨last.music, last.start_idx,
            last.length + 1, max last.end_time note.end_time⟩ := by
          intro j hj1 hj2
          have hj1' : last.start_idx + (last.length + 1) ≤ j := hj1
          refine max_le (hlastE j (by omega) hj2) (hnewE j ?_ hj2)
          show a + 1 ≤ j
          omega
        obtain ⟨rev', h1, h2, h3⟩ := ih (a + 1)
          (⟨last.music, last.start_idx, last.length + 1,
              max last.end_time note.end_time⟩ :: tailRev)
          hdrop'
          ⟨hm, Nat.succ_pos _, show last.start_idx + (last.length + 1) = a + 1
            by omega, htail⟩
          (by
            intro p hp
            rcases List.mem_cons.mp hp with hp | hp
            · subst hp; exact hmergedE
            · exact hE p (List.mem_cons_of_mem _ hp))
        exact ⟨rev', by simpa using h1,
          (by simp only [List.length_cons]; rw [← harith]; exact h2), h3⟩
      · rw [hstepval, if_neg hcond]
        obtain ⟨rev', h1, h2, h3⟩ := ih (a + 1)
          (⟨music, a, 1, note.end_time⟩ :: last :: tailRev)
          hdrop'
          ⟨rfl, one_pos, rfl, hm, hlen, hend, htail⟩
          (by
            intro p hp
            rcases List.mem_cons.mp hp with hp | hp
            · subst hp; exact hnewE
            · exact hE p hp)
        exact ⟨rev', by simpa using h1,
          (by simp only [List.length_cons]; rw [← harith]; exact h2), h3⟩

theorem cluster_pass_step_id {music : List MNote}
    (hs : music.Pairwise fun x y => x.start_time ≤ y.start_time) (d : Int)
    {part : MPart} {c : Nat} {rev : List MPart}
    (hpm : part.music = music) (hps : part.start_idx = c)
    (hpl : 0 < part.length) (hle : c + part.length ≤ music.length)
    (hr : RevChain music rev c) (hE : ∀ p ∈ rev, PartEndLe music p) :
    cluster_pass_step (fun _ _ _ _ => false) music d rev part
      = some (part :: rev) := by
  have hfs : part.first_start_time = (music.getD c default).start_time := by
    unfold MPart.first_start_time MPart.first
    rw [hpm, hps]
  have hnc : ∀ (lmp : MPart) (dist : Int), PartEndLe music lmp →
      lmp.start_idx + lmp.length ≤ c →
      ¬(dist ≤ d ∧ (lmp.end_time > part.first_start_time
        ∨ (fun (_ _ : MPart) (_ : Int) (_ : List MNote) => false)
            lmp part d music = true)) := by
    intro lmp dist hE9 hle9 hcond
    rcases hcond.2 with hgt | hfalse
    · have h9 := hE9 c hle9 (by omega)
      rw [← hfs] at h9
      omega
    · exact absurd hfalse (by simp)
  by_cases hrest : part.is_rest = true
  · unfold cluster_pass_step
    rw [if_pos hrest]
  · rcases hr' : rev with _ | ⟨last, tailRev⟩
    · have : cluster_pass_step (fun _ _ _ _ => false) music d [] part
          = some [part] := by
        unfold cluster_pass_step
        rw [if_neg hrest]
      exact this
    · subst hr'
      rcases tailRev with _ | ⟨lm2, tailRev⟩
      · obtain ⟨hlm, hll, hlend, _⟩ := hr
        have hstepval : cluster_pass_step (fun _ _ _ _ => false) music d
            [last] part
            = if last.is_rest = true then
                some (part :: [last])
              else
                (part.sub last).bind fun dist =>
                  if dist ≤ d
                      ∧ (last.end_time > part.first_start_time
                         ∨ (fun (_ _ : MPart) (_ : Int) (_ : List MNote) =>
                             false) last part d music = true) then
                    (last.add part).map (· :: [])
                  else
                    some (part :: [last]) := by
          unfold cluster_pass_step
          rw [if_neg hrest]
        by_cases hlr : last.is_rest = true
        · rw [hstepval, if_pos hlr]
        · have hsub := part_sub_of_sorted hs hpm hlm
            (show last.start_idx + last.length - 1 ≤ part.start_idx by omega)
            (show part.start_idx < music.length by omega)
          rw [hstepval, if_neg hlr, hsub, Option.some_bind,
            if_neg (hnc last _ (hE last (List.mem_cons_self _ _)) (by omega))]
      · obtain ⟨hlm, hll, hlend, hr2⟩ := hr
        obtain ⟨hlm2, hll2, hlend2, _⟩ := hr2
        have hstepval : cluster_pass_step (fun _ _ _ _ => false) music d
            (last :: lm2 :: tailRev) part
            = if last.is_rest = true then
                (part.sub lm2).bind fun dist =>
                  if dist ≤ d
                      ∧ (lm2.end_time > part.first_start_time
                         ∨ (fun (_ _ : MPart) (_ : Int) (_ : List MNote) =>
                             false) lm2 part d music = true) then
                    (last.add part).bind fun part' =>
                      (lm2.add part').map (· :: tailRev)
                  else
                    some (part :: last :: lm2 :: tailRev)
              else
                (part.sub last).bind fun dist =>
                  if dist ≤ d
                      ∧ (last.end_time > part.first_start_time
                         ∨ (fun (_ _ : MPart) (_ : Int) (_ : List MNote) =>
                             false) last part d music = true) then
                    (last.add part).map (· :: lm2 :: tailRev)
                  else
                    some (part :: last :: lm2 :: tailRev) := by
          unfold cluster_pass_step
          rw [if_neg hrest]
        by_cases hlr : last.is_rest = true
        · have hsub := part_sub_of_sorted hs hpm hlm2
            (show lm2.start_idx + lm2.length - 1 ≤ part.start_idx by omega)
            (show part.start_idx < music.length by omega)
          rw [hstepval, if_pos hlr, hsub, Option.some_bind,
            if_neg (hnc lm2 _ (hE lm2 (List.mem_cons_of_mem _
              (List.mem_cons_self _ _))) (by omega))]
        · have hsub := part_sub_of_sorted hs hpm hlm
            (show last.start_idx + last.length - 1 ≤ part.start_idx by omega)
            (show part.start_idx < music.length by omega)
          rw [hstepval, if_neg hlr, hsub, Option.some_bind,
            if_neg (hnc last _ (hE last (List.mem_cons_self _ _)) (by omega))]

theorem cluster_pass_fold_id {music : List MNote}
    (hs : music.Pairwise fun x y => x.start_time ≤ y.start_time) (d : Int) :
    ∀ (parts : List MPart) (c : Nat) (rev : List MPart),
      ChainFrom music c parts music.length → RevChain music rev c →
      (∀ p ∈ parts, PartEndLe music p) → (∀ p ∈ rev, PartEndLe music p) →
      parts.foldlM (cluster_pass_step (fun _ _ _ _ => false) music d) rev
        = some (parts.reverse ++ rev) := by
  intro parts
  induction parts with
  | nil => intro c rev _ _ _ _; simp
  | cons part parts ih =>
    intro c rev hc hr hEp hEr
    obtain ⟨hpm, hps, hpl, hchain⟩ := hc
    have hle : c + part.length ≤ music.length := chainFrom_le hchain
    have hrev' : RevChain music (part :: rev) (c + part.length) :=
      ⟨hpm, hpl, by omega, hps ▸ hr⟩
    have hEp' : ∀ p ∈ parts, PartEndLe music p :=
      fun p hp => hEp p (List.mem_cons_of_mem _ hp)
    have hEr' : ∀ p ∈ part :: rev, PartEndLe music p := by
      intro p hp
      rcases List.mem_cons.mp hp with hp | hp
      · exact hp.symm ▸ hEp part (List.mem_cons_self _ _)
      · exact hEr p hp
    rw [List.foldlM_cons,
      cluster_pass_step_id hs d hpm hps hpl hle hr hEr,
      Option.bind_eq_bind, Option.some_bind,
      ih (c + part.length) (part :: rev) hchain hrev' hEp' hEr']
    simp

theorem cluster_pass_id {music : List MNote}
    (hs : music.Pairwise fun x y => x.start_time ≤ y.start_time) (d : Int)
    {data : List MPart} (hc : ChainFrom music 0 data music.length)
    (hE : ∀ p ∈ data, PartEndLe music p) :
    cluster_pass (fun _ _ _ _ => false) music d data = some data := by
  unfold cluster_pass
  rw [cluster_pass_fold_id hs d data 0 [] hc rfl hE (by simp)]
  simp

theorem cluster_loop_id {music : List MNote}
    (hs : music.Pairwise fun x y => x.start_time ≤ y.start_time)
    {data : List MPart} (hc : ChainFrom music 0 data music.length)
    (hE : ∀ p ∈ data, PartEndLe music p) :
    ∀ (fuel : Nat) (d : Int),
      cluster_loop (fun _ _ _ _ => false) music fuel d data = some data := by
  intro fuel
  induction fuel with
  | zero => intro d; rfl
  | succ fuel ih =>
    intro d
    by_cases hd : d ≤ (BEAT_LCM : Int)
    · show cluster_loop (fun _ _ _ _ => false) music (fuel + 1) d data
        = some data
      unfold cluster_loop
      rw [if_pos hd, cluster_pass_id hs d hc hE, Option.some_bind]
      exact ih (d * 2)
    · show cluster_loop (fun _ _ _ _ => false) music (fuel + 1) d data
        = some data
      unfold cluster_loop
      rw [if_neg hd]

/-- C4 (amended): on an input ordered by start time whose notes are
pairwise time-disjoint (each note's `end_time` is at most every later
note's `start_time`, so the time-overlap merge disjunct never fires),
running `cluster` with the always-false merge predicate yields exactly
the Phase-0 atomic fusions: the agglomeration passes perform zero
merges. -/
theorem cluster_false_pred_eq_phase0 (music : List MNote)
    (hs : music.Pairwise fun x y => x.start_time ≤ y.start_time)
    (hd : music.Pairwise fun x y => x.end_time ≤ y.start_time) :
    ∃ ps, cluster_phase0 music = some ps
      ∧ cluster music (fun _ _ _ _ => false) = some ps := by
  obtain ⟨rev', h1, h2, h3⟩ :=
    cluster_phase0_aux_endle music hd music 0 [] rfl rfl (by simp)
  have hphase : cluster_phase0 music = some rev'.reverse := by
    unfold cluster_phase0
    rw [List.enum_eq_enumFrom, h1]
    rfl
  refine ⟨rev'.reverse, hphase, ?_⟩
  show (cluster_phase0 music).bind
    (cluster_loop (fun _ _ _ _ => false) music (BEAT_LCM + 1) 1)
      = some rev'.reverse
  rw [hphase, Option.some_bind]
  exact cluster_loop_id hs (revChain_reverse (by simpa using h2))
    (fun p hp => h3 p (List.mem_reverse.mp hp)) (BEAT_LCM + 1) 1

/-- C4 witness: the amended theorem applied to a concrete sorted,
time-disjoint two-note music. -/
theorem cluster_false_pred_eq_phase0_witness :
    ∃ ps, cluster_phase0 [⟨1, 0, 2, 2⟩, ⟨1, 4, 2, 6⟩] = some ps
      ∧ cluster [⟨1, 0, 2, 2⟩, ⟨1, 4, 2, 6⟩] (fun _ _ _ _ => false)
          = some ps :=
  cluster_false_pred_eq_phase0 [⟨1, 0, 2, 2⟩, ⟨1, 4, 2, 6⟩]
    (by decide) (by decide)

/-- C8: after catalog construction no two Transpositions anywhere in the
catalog share a sorted-interval-set key; each quality emits at most as
many Transpositions as its tone count; the counts are 3, 3, 1, 3, so
the augmented triad — whose rotations all collapse onto `[0,4,8]` —
emits exactly one Transposition (strictly fewer than its 3 tones). -/
theorem catalog_dedup_invariant :
    (((Chord.chords.map fun c => c.2).flatten.map
        fun t => py_sorted t.order).Nodup)
    ∧ (∀ pr ∈ List.zip CHORDS Chord.chords,
        pr.2.2.length ≤ pr.1.2.length)
    ∧ (Chord.chords.map fun c => (c.1, c.2.length))
        = [("maj3", 3), ("min3", 3), ("aug3", 1), ("dim3", 3)] := by
  refine ⟨by decide, by decide, by decide⟩

/-- C10: once the key of the current rotation is already registered in
the deduplication set, the rotation loop of `Chord.__init__` emits
nothing in any of its remaining iterations: the duplicate branch skips
without advancing the rotation, so every remaining iteration re-examines
the same registered key and the accumulated Transpositions and dedup
set come out unchanged. -/
theorem chord_init_loop_stuck (name : String) :
    ∀ (k idx : Nat) (order : List Int) (dedup : List (List Int))
      (acc : List Transposition),
      py_sorted order ∈ dedup →
      chord_init_loop name k idx order dedup acc = (acc, dedup) := by
  intro k
  induction k with
  | zero => intro idx order dedup acc _; rfl
  | succ k ih =>
    intro idx order dedup acc hmem
    show (if py_sorted order ∈ dedup then
        chord_init_loop name k (idx + 1) order dedup acc
      else
        chord_init_loop name k (idx + 1) (chord_transposition order)
          (py_sorted order :: dedup)
          (acc ++ [⟨name, idx, order⟩])) = (acc, dedup)
    rw [if_pos hmem]
    exact ih (idx + 1) order dedup acc hmem

/-- C10 witness: the augmented triad's loop after its first (emitting)
iteration: the key `[0,4,8]` is registered, so the remaining two
iterations emit nothing. -/
theorem chord_init_loop_stuck_witness :
    chord_init_loop "aug3" 2 1 [0, 4, 8] [[0, 4, 8]] []
      = ([], [[0, 4, 8]]) :=
  chord_init_loop_stuck "aug3" 2 1 [0, 4, 8] [[0, 4, 8]] [] (by decide)

/-- C5: for every supported time signature, the combined per-tick weight
array has length beats × (BEAT_LCM / beat_type) and its sum equals the
sum of the base per-beat profile. -/
theorem measure_weight_length_sum :
    ∀ p ∈ WEIGHT,
      (Measure.combined p.1.2 p.2).length = p.1.1 * (BEAT_LCM / p.1.2)
      ∧ (Measure.combined p.1.2 p.2).sum = p.2.sum := by
  intro p hp
  fin_cases hp <;>
    refine ⟨?_, ?_⟩ <;>
    norm_num [Measure.combined, WEIGHT_B_INNER, combine_weight,
      _WEIGHT_1, _WEIGHT_2, _WEIGHT_3, _WEIGHT_4, _WEIGHT_6, _WEIGHT_8,
      BEAT_LCM]

/-- C5 witness: the length/sum property at the compound signature 6/8. -/
theorem measure_weight_length_sum_witness :
    (Measure.combined 8 _WEIGHT_6).length = 6 * (BEAT_LCM / 8)
    ∧ (Measure.combined 8 _WEIGHT_6).sum = _WEIGHT_6.sum :=
  measure_weight_length_sum ((6, 8), _WEIGHT_6)
    (List.mem_cons_of_mem _ (List.mem_cons_of_mem _ (List.mem_cons_of_mem _
      (List.mem_cons_of_mem _ (List.mem_cons_of_mem _
        (List.mem_cons_self _ _))))))

theorem int_range_mem {a b i : Int} :
    i ∈ int_range a b ↔ a ≤ i ∧ i < b := by
  unfold int_range
  rw [List.mem_map]
  constructor
  · rintro ⟨k, hk, rfl⟩
    rw [List.mem_range] at hk
    omega
  · intro h
    refine ⟨(i - a).toNat, ?_, by omega⟩
    rw [List.mem_range]
    omega

theorem py_index_of_nonneg {n : Nat} {i : Int} (h1 : 0 ≤ i)
    (h2 : i < (n : Int)) : py_index n i = some i.toNat := by
  unfold py_index
  rw [if_pos ⟨h1, h2⟩]

theorem py_index_of_big {n : Nat} {i : Int} (h : (n : Int) ≤ i) :
    py_index n i = none := by
  unfold py_index
  rw [if_neg (by omega), if_neg (by omega)]

theorem append_at_length {uw uw₁ : List (List Int)} {i step : Int}
    (h : append_at uw i step = some uw₁) : uw₁.length = uw.length := by
  unfold append_at at h
  rw [Option.map_eq_some'] at h
  obtain ⟨k, _, hk⟩ := h
  rw [← hk, List.length_set]

theorem inner_fold_length {step : Int} :
    ∀ (l : List Int) (uw uw' : List (List Int)),
      l.foldlM (fun u i => append_at u i step) uw = some uw' →
      uw'.length = uw.length := by
  intro l
  induction l with
  | nil =>
    intro uw uw' h
    rw [List.foldlM_nil] at h
    cases h
    rfl
  | cons j l ih =>
    intro uw uw' h
    rw [List.foldlM_cons] at h
    cases hj : append_at uw j step with
    | none =>
      rw [hj] at h
      simp at h
    | some uw₁ =>
      rw [hj, Option.bind_eq_bind, Option.some_bind] at h
      rw [ih uw₁ uw' h, append_at_length hj]

theorem inner_fold_some (step : Int) :
    ∀ (l : List Int) (uw : List (List Int)),
      (∀ i ∈ l, 0 ≤ i ∧ i < (uw.length : Int)) →
      ∃ uw', l.foldlM (fun u i => append_at u i step) uw = some uw' := by
  intro l
  induction l with
  | nil => intro uw _; exact ⟨uw, rfl⟩
  | cons j l ih =>
    intro uw hin
    obtain ⟨h1, h2⟩ := hin j (List.mem_cons_self _ _)
    have hj : append_at uw j step
        = some (uw.set j.toNat (uw.getD j.toNat [] ++ [step])) := by
      unfold append_at
      rw [py_index_of_nonneg h1 h2]
      rfl
    obtain ⟨uw', h⟩ := ih (uw.set j.toNat (uw.getD j.toNat [] ++ [step]))
      (by
        intro i hi
        have := hin i (List.mem_cons_of_mem _ hi)
        rwa [List.length_set])
    refine ⟨uw', ?_⟩
    rw [List.foldlM_cons, hj, Option.bind_eq_bind, Option.some_bind]
    exact h

theorem inner_fold_none {step : Int} :
    ∀ (l : List Int) (uw : List (List Int)) (i : Int), i ∈ l →
      (uw.length : Int) ≤ i →
      l.foldlM (fun u i => append_at u i step) uw = none := by
  intro l
  induction l with
  | nil => intro uw i hi; cases hi
  | cons j l ih =>
    intro uw i hi hbig
    rw [List.foldlM_cons]
    cases hj : append_at uw j step with
    | none => simp
    | some uw₁ =>
      rw [Option.bind_eq_bind, Option.some_bind]
      rcases List.mem_cons.mp hi with rfl | hi'
      · exfalso
        unfold append_at at hj
        rw [py_index_of_big hbig] at hj
        cases hj
      · exact ih uw₁ i hi' (by rw [append_at_length hj]; exact hbig)

theorem outer_fold_length :
    ∀ (notes : List MNote) (uw uw' : List (List Int)),
      notes.foldlM (fun u note =>
        if note.step_id = -1 then some u
        else (int_range note.start_time
            (note.start_time + note.duration)).foldlM
          (fun u2 i => append_at u2 i note.step_id) u) uw = some uw' →
      uw'.length = uw.length := by
  intro notes
  induction notes with
  | nil =>
    intro uw uw' h
    rw [List.foldlM_nil] at h
    cases h
    rfl
  | cons m notes ih =>
    intro uw uw' h
    rw [List.foldlM_cons] at h
    by_cases hm : m.step_id = -1
    · rw [if_pos hm, Option.bind_eq_bind, Option.some_bind] at h
      exact ih uw uw' h
    · rw [if_neg hm] at h
      cases hin : (int_range m.start_time
          (m.start_time + m.duration)).foldlM
          (fun u2 i => append_at u2 i m.step_id) uw with
      | none => rw [hin] at h; simp at h
      | some uw₁ =>
        rw [hin, Option.bind_eq_bind, Option.some_bind] at h
        rw [ih uw₁ uw' h, inner_fold_length _ uw uw₁ hin]

theorem outer_fold_some :
    ∀ (notes : List MNote) (uw : List (List Int)),
      (∀ n ∈ notes, n.step_id ≠ -1 →
        0 ≤ n.start_time ∧ n.start_time + n.duration ≤ (uw.length : Int)) →
      ∃ uw', notes.foldlM (fun u note =>
        if note.step_id = -1 then some u
        else (int_range note.start_time
            (note.start_time + note.duration)).foldlM
          (fun u2 i => append_at u2 i note.step_id) u) uw = some uw' := by
  intro notes
  induction notes with
  | nil => intro uw _; exact ⟨uw, rfl⟩
  | cons m notes ih =>
    intro uw hin
    by_cases hm : m.step_id = -1
    · obtain ⟨uw', h⟩ := ih uw
        (fun n hn => hin n (List.mem_cons_of_mem _ hn))
      refine ⟨uw', ?_⟩
      rw [List.foldlM_cons, if_pos hm, Option.bind_eq_bind, Option.some_bind]
      exact h
    · obtain ⟨hs, he⟩ := hin m (List.mem_cons_self _ _) hm
      obtain ⟨uw₁, h₁⟩ := inner_fold_some m.step_id
        (int_range m.start_time (m.start_time + m.duration)) uw
        (by
          intro i hi
          rw [int_range_mem] at hi
          omega)
      obtain ⟨uw', h⟩ := ih uw₁
        (by
          intro n hn hns
          rw [inner_fold_length _ uw uw₁ h₁]
          exact hin n (List.mem_cons_of_mem _ hn) hns)
      refine ⟨uw', ?_⟩
      rw [List.foldlM_cons, if_neg hm, h₁, Option.bind_eq_bind,
        Option.some_bind]
      exact h

theorem outer_fold_none :
    ∀ (notes : List MNote) (uw : List (List Int)) (n : MNote), n ∈ notes →
      n.step_id ≠ -1 → 0 < n.duration →
      (uw.length : Int) < n.start_time + n.duration →
      notes.foldlM (fun u note =>
        if note.step_id = -1 then some u
        else (int_range note.start_time
            (note.start_time + note.duration)).foldlM
          (fun u2 i => append_at u2 i note.step_id) u) uw = none := by
  intro notes
  induction notes with
  | nil => intro uw n hn; cases hn
  | cons m notes ih =>
    intro uw n hn hns hdur hbig
    rw [List.foldlM_cons]
    rcases List.mem_cons.mp hn with rfl | hn'
    · rw [if_neg hns,
        inner_fold_none _ uw (n.start_time + n.duration - 1)
          (by rw [int_range_mem]; omega) (by omega)]
      simp
    · by_cases hm : m.step_id = -1
      · rw [if_pos hm, Option.bind_eq_bind, Option.some_bind]
        exact ih uw n hn' hns hdur hbig
      · rw [if_neg hm]
        cases hin : (int_range m.start_time
            (m.start_time + m.duration)).foldlM
            (fun u2 i => append_at u2 i m.step_id) uw with
        | none => simp
        | some uw₁ =>
          rw [Option.bind_eq_bind, Option.some_bind]
          refine ih uw₁ n hn' hns hdur ?_
          rw [inner_fold_length _ uw uw₁ hin]
          exact hbig

/-- C9: when every non-rest note of the measure lies within the per-tick
weight array (`0 ≤ start_time` and `start_time + duration ≤ length`),
every tick access of `get_weight` is in bounds and it returns a profile;
a non-rest note whose non-empty interval extends past the array's length
makes `get_weight` fail with an out-of-bounds index access. -/
theorem get_weight_in_bounds (mw : List ℚ) (notes : List MNote) :
    ((∀ n ∈ notes, n.step_id ≠ -1 →
        0 ≤ n.start_time ∧ n.start_time + n.duration ≤ (mw.length : Int)) →
      ∃ p, get_weight mw notes = some p)
    ∧ (∀ n ∈ notes, n.step_id ≠ -1 → 0 < n.duration →
        (mw.length : Int) < n.start_time + n.duration →
        get_weight mw notes = none) := by
  constructor
  · intro h
    obtain ⟨uw', huw⟩ := outer_fold_some notes
      (List.replicate mw.length []) (by simpa using h)
    refine ⟨note_weight_of mw uw', ?_⟩
    unfold get_weight used_weight_of
    rw [huw]
    rfl
  · intro n hn h1 h2 h3
    unfold get_weight used_weight_of
    rw [outer_fold_none notes _ n hn h1 h2 (by simpa using h3)]
    rfl

/-- C9 witness: a one-tick measure with a fitting note returns a
profile; stretching the note's duration to 2 overruns the array and
fails. -/
theorem get_weight_in_bounds_witness :
    (∃ p, get_weight [1] [⟨5, 0, 1, 1⟩] = some p)
    ∧ get_weight [1] [⟨5, 0, 2, 2⟩] = none := by
  constructor
  · refine (get_weight_in_bounds [1] [⟨5, 0, 1, 1⟩]).1 ?_
    intro n hn _
    rw [List.mem_singleton] at hn
    subst hn
    norm_num
  · exact (get_weight_in_bounds [1] [⟨5, 0, 2, 2⟩]).2 ⟨5, 0, 2, 2⟩
      (List.mem_singleton_self _) (by norm_num) (by norm_num) (by norm_num)

theorem getD_set_empty_iff {uw : List (List Int)} {t k : Nat}
    {x : List Int} (hk : k < uw.length) (hx : x ≠ []) :
    (uw.set t x).getD k [] = [] ↔ uw.getD k [] = [] ∧ k ≠ t := by
  rw [List.getD_eq_getElem _ _ (show k < (uw.set t x).length by
      rw [List.length_set]; exact hk),
    List.getD_eq_getElem _ _ hk]
  by_cases hkt : k = t
  · subst hkt
    rw [List.getElem_set_self]
    simp [hx]
  · rw [List.getElem_set_ne (fun h => hkt h.symm)]
    simp [hkt]

theorem inner_fold_char (step : Int) :
    ∀ (l : List Int) (uw : List (List Int)),
      (∀ i ∈ l, 0 ≤ i ∧ i < (uw.length : Int)) →
      ∃ uw', l.foldlM (fun u i => append_at u i step) uw = some uw'
        ∧ uw'.length = uw.length
        ∧ ∀ k : Nat, k < uw.length →
            (uw'.getD k [] = [] ↔ uw.getD k [] = [] ∧ (k : Int) ∉ l) := by
  intro l
  induction l with
  | nil =>
    intro uw _
    exact ⟨uw, rfl, rfl, fun k _ => by simp⟩
  | cons j l ih =>
    intro uw hin
    obtain ⟨h1, h2⟩ := hin j (List.mem_cons_self _ _)
    have hj : append_at uw j step
        = some (uw.set j.toNat (uw.getD j.toNat [] ++ [step])) := by
      unfold append_at
      rw [py_index_of_nonneg h1 h2]
      rfl
    obtain ⟨uw', h, hlen, hchar⟩ := ih
      (uw.set j.toNat (uw.getD j.toNat [] ++ [step]))
      (by
        intro i hi
        have := hin i (List.mem_cons_of_mem _ hi)
        rwa [List.length_set])
    refine ⟨uw', ?_, by rw [hlen, List.length_set], ?_⟩
    · rw [List.foldlM_cons, hj, Option.bind_eq_bind, Option.some_bind]
      exact h
    · intro k hk
      rw [hchar k (by rw [List.length_set]; exact hk),
        getD_set_empty_iff hk (by simp)]
      constructor
      · rintro ⟨⟨hempty, hkj⟩, hnotin⟩
        refine ⟨hempty, ?_⟩
        rw [List.mem_cons]
        rintro (rfl | hmem)
        · exact hkj (by omega)
        · exact hnotin hmem
      · rintro ⟨hempty, hnotin⟩
        rw [List.mem_cons] at hnotin
        push_neg at hnotin
        exact ⟨⟨hempty, fun hkj => hnotin.1 (by omega)⟩, hnotin.2⟩

theorem outer_fold_char :
    ∀ (notes : List MNote) (uw : List (List Int)),
      (∀ n ∈ notes, n.step_id ≠ -1 →
        0 ≤ n.start_time ∧ n.start_time + n.duration ≤ (uw.length : Int)) →
      ∃ uw', notes.foldlM (fun u note =>
          if note.step_id = -1 then some u
          else (int_range note.start_time
              (note.start_time + note.duration)).foldlM
            (fun u2 i => append_at u2 i note.step_id) u) uw = some uw'
        ∧ uw'.length = uw.length
        ∧ ∀ k : Nat, k < uw.length →
            (uw'.getD k [] = [] ↔ uw.getD k [] = [] ∧ ¬TickCovered notes k) := by
  intro notes
  induction notes with
  | nil =>
    intro uw _
    refine ⟨uw, rfl, rfl, fun k _ => ?_⟩
    unfold TickCovered
    simp
  | cons m notes ih =>
    intro uw hin
    by_cases hm : m.step_id = -1
    · obtain ⟨uw', h, hlen, hchar⟩ := ih uw
        (fun n hn => hin n (List.mem_cons_of_mem _ hn))
      refine ⟨uw', ?_, hlen, ?_⟩
      · rw [List.foldlM_cons, if_pos hm, Option.bind_eq_bind,
          Option.some_bind]
        exact h
      · intro k hk
        rw [hchar k hk]
        unfold TickCovered
        constructor
        · rintro ⟨hempty, hnc⟩
          refine ⟨hempty, ?_⟩
          rintro ⟨n, hn, hns, hcov⟩
          rcases List.mem_cons.mp hn with rfl | hn'
          · exact hns hm
          · exact hnc ⟨n, hn', hns, hcov⟩
        · rintro ⟨hempty, hnc⟩
          exact ⟨hempty, fun ⟨n, hn', hns, hcov⟩ =>
            hnc ⟨n, List.mem_cons_of_mem _ hn', hns, hcov⟩⟩
    · obtain ⟨hs, he⟩ := hin m (List.mem_cons_self _ _) hm
      obtain ⟨uw₁, h₁, hlen₁, hchar₁⟩ := inner_fold_char m.step_id
        (int_range m.start_time (m.start_time + m.duration)) uw
        (by
          intro i hi
          rw [int_range_mem] at hi
          omega)
      obtain ⟨uw', h, hlen, hchar⟩ := ih uw₁
        (by
          intro n hn hns
          rw [hlen₁]
          exact hin n (List.mem_cons_of_mem _ hn) hns)
      refine ⟨uw', ?_, by rw [hlen, hlen₁], ?_⟩
      · rw [List.foldlM_cons, if_neg hm, h₁, Option.bind_eq_bind,
          Option.some_bind]
        exact h
      · intro k hk
        rw [hchar k (by rw [hlen₁]; exact hk), hchar₁ k hk]
        unfold TickCovered
        rw [int_range_mem]
        constructor
        · rintro ⟨⟨hempty, hnr⟩, hnc⟩
          refine ⟨hempty, ?_⟩
          rintro ⟨n, hn, hns, hcov1, hcov2⟩
          rcases List.mem_cons.mp hn with rfl | hn'
          · exact hnr ⟨hcov1, hcov2⟩
          · exact hnc ⟨n, hn', hns, hcov1, hcov2⟩
        · rintro ⟨hempty, hnc⟩
          refine ⟨⟨hempty, ?_⟩, ?_⟩
          · rintro ⟨hc1, hc2⟩
            exact hnc ⟨m, List.mem_cons_self _ _, hm, hc1, hc2⟩
          · rintro ⟨n, hn', hns, hcov1, hcov2⟩
            exact hnc ⟨n, List.mem_cons_of_mem _ hn', hns, hcov1, hcov2⟩

theorem add_weight_total (k : Int) (v : ℚ) :
    ∀ nw : List (Int × ℚ),
      profile_total (add_weight k v nw) = profile_total nw + v := by
  intro nw
  induction nw with
  | nil => simp [add_weight, profile_total]
  | cons p nw ih =>
    by_cases hk : p.1 = k
    · unfold add_weight
      rw [show (p.1, p.2) = p from rfl] at *
      simp only [profile_total, List.map_cons, List.sum_cons]
      rw [if_pos hk]
      simp only [List.map_cons, List.sum_cons]
      ring
    · unfold add_weight
      simp only [profile_total, List.map_cons, List.sum_cons]
      rw [if_neg hk]
      simp only [List.map_cons, List.sum_cons]
      unfold profile_total at ih
      rw [ih]
      ring

theorem steps_fold_total (piece : ℚ) :
    ∀ (used : List Int) (nw : List (Int × ℚ)),
      profile_total (used.foldl (fun a s => add_weight s piece a) nw)
        = profile_total nw + used.length * piece := by
  intro used
  induction used with
  | nil => intro nw; simp
  | cons s used ih =>
    intro nw
    rw [List.foldl_cons, ih, add_weight_total]
    simp only [List.length_cons]
    push_cast
    ring

theorem note_weight_fold_total :
    ∀ (l : List (ℚ × List Int)) (nw : List (Int × ℚ)),
      profile_total (l.foldl (fun nw2 p => if p.2 = [] then nw2
        else p.2.foldl (fun nw3 step =>
          add_weight step (p.1 / (p.2.length : ℚ)) nw3) nw2) nw)
        = profile_total nw
          + (l.map fun p => if p.2 = [] then 0 else p.1).sum := by
  intro l
  induction l with
  | nil => intro nw; simp
  | cons p l ih =>
    intro nw
    rw [List.foldl_cons]
    by_cases hp : p.2 = []
    · rw [if_pos hp, ih, List.map_cons, List.sum_cons, if_pos hp]
      ring
    · rw [if_neg hp, ih, steps_fold_total, List.map_cons, List.sum_cons,
        if_neg hp]
      have hlen : ((p.2.length : ℚ)) ≠ 0 := by
        simp [List.length_eq_zero, hp]
      rw [mul_div_cancel₀ _ hlen]
      ring

theorem zip_ite_sum_full :
    ∀ (mw : List ℚ) (uw : List (List Int)), mw.length = uw.length →
      (∀ k : Nat, k < uw.length → uw.getD k [] ≠ []) →
      ((mw.zip uw).map fun p => if p.2 = [] then 0 else p.1).sum
        = mw.sum := by
  intro mw
  induction mw with
  | nil => intro uw _ _; simp
  | cons w mw ih =>
    intro uw hlen hne
    match uw with
    | [] => cases hlen
    | u :: uw =>
      have h0 : u ≠ [] := by
        have := hne 0 (by simp)
        simpa using this
      rw [List.zip_cons_cons, List.map_cons, List.sum_cons, if_neg h0,
        List.sum_cons,
        ih uw (by simpa using hlen) (by
          intro k hk
          have := hne (k + 1) (by simpa using hk)
          simpa using this)]

theorem zip_ite_sum_le :
    ∀ (mw : List ℚ) (uw : List (List Int)),
      (∀ q ∈ mw, 0 ≤ q) →
      ((mw.zip uw).map fun p => if p.2 = [] then 0 else p.1).sum
        ≤ mw.sum := by
  intro mw
  induction mw with
  | nil => intro uw _; simp
  | cons w mw ih =>
    intro uw hpos
    match uw with
    | [] =>
      simp only [List.zip_nil_right, List.map_nil, List.sum_nil]
      have h1 : (0 : ℚ) ≤ w := hpos w (List.mem_cons_self _ _)
      have h2 : (0 : ℚ) ≤ mw.sum :=
        List.sum_nonneg fun q hq => hpos q (List.mem_cons_of_mem _ hq)
      simp only [List.sum_cons]
      linarith
    | u :: uw =>
      rw [List.zip_cons_cons, List.map_cons, List.sum_cons, List.sum_cons]
      have h1 : (if u = [] then (0 : ℚ) else w) ≤ w := by
        by_cases hu : u = []
        · rw [if_pos hu]; exact hpos w (List.mem_cons_self _ _)
        · rw [if_neg hu]
      have h2 := ih uw (fun q hq => hpos q (List.mem_cons_of_mem _ hq))
      linarith

theorem zip_ite_sum_lt :
    ∀ (mw : List ℚ) (uw : List (List Int)), mw.length = uw.length →
      (∀ q ∈ mw, 0 < q) →
      (∃ k : Nat, k < uw.length ∧ uw.getD k [] = []) →
      ((mw.zip uw).map fun p => if p.2 = [] then 0 else p.1).sum
        < mw.sum := by
  intro mw
  induction mw with
  | nil =>
    intro uw hlen _ hex
    obtain ⟨k, hk, _⟩ := hex
    rw [← hlen] at hk
    cases hk
  | cons w mw ih =>
    intro uw hlen hpos hex
    match uw with
    | [] => cases hlen
    | u :: uw =>
      rw [List.zip_cons_cons, List.map_cons, List.sum_cons, List.sum_cons]
      obtain ⟨k, hk, hempty⟩ := hex
      match k with
      | 0 =>
        have hu : u = [] := by simpa using hempty
        rw [if_pos hu]
        have h2 := zip_ite_sum_le mw uw
          (fun q hq => le_of_lt (hpos q (List.mem_cons_of_mem _ hq)))
        have h3 : (0 : ℚ) < w := hpos w (List.mem_cons_self _ _)
        linarith
      | k + 1 =>
        have h1 : (if u = [] then (0 : ℚ) else w) ≤ w := by
          by_cases hu : u = []
          · rw [if_pos hu]
            exact le_of_lt (hpos w (List.mem_cons_self _ _))
          · rw [if_neg hu]
        have h2 := ih uw (by simpa using hlen)
          (fun q hq => hpos q (List.mem_cons_of_mem _ hq))
          ⟨k, by simpa using hk, by simpa using hempty⟩
        linarith

/-- C6: for a measure whose non-rest notes lie within its per-tick
weight array (all weights positive, as in every configured measure):
if every tick is covered by at least one sounding note, the total of the
returned WeightProfile equals the sum of the weight array; if some tick
is silent, the accumulated total is strictly smaller than that sum. -/
theorem get_weight_total (mw : List ℚ) (notes : List MNote)
    (hpos : ∀ q ∈ mw, 0 < q)
    (hin : ∀ n ∈ notes, n.step_id ≠ -1 →
      0 ≤ n.start_time ∧ n.start_time + n.duration ≤ (mw.length : Int)) :
    ((∀ k : Nat, k < mw.length → TickCovered notes k) →
      ∃ p, get_weight mw notes = some p ∧ profile_total p = mw.sum)
    ∧ ((∃ k : Nat, k < mw.length ∧ ¬TickCovered notes k) →
      ∃ p, get_weight mw notes = some p ∧ profile_total p < mw.sum) := by
  obtain ⟨uw', h, hlen, hchar⟩ := outer_fold_char notes
    (List.replicate mw.length []) (by simpa using hin)
  have hlen' : uw'.length = mw.length := by simpa using hlen
  have hgw : get_weight mw notes = some (note_weight_of mw uw') := by
    unfold get_weight used_weight_of
    rw [h]
    rfl
  have hrep : ∀ k : Nat,
      (List.replicate mw.length ([] : List Int)).getD k [] = [] := by
    intro k
    rcases lt_or_ge k mw.length with hk | hk
    · rw [List.getD_eq_getElem _ _ (by simpa using hk),
        List.getElem_replicate]
    · exact List.getD_eq_default _ _ (by simpa using hk)
  have hchar' : ∀ k : Nat, k < mw.length →
      (uw'.getD k [] = [] ↔ ¬TickCovered notes k) := by
    intro k hk
    have h9 := hchar k (by simpa using hk)
    rw [hrep k] at h9
    simpa using h9
  have htot : profile_total (note_weight_of mw uw')
      = ((mw.zip uw').map fun p => if p.2 = [] then 0 else p.1).sum := by
    unfold note_weight_of
    rw [note_weight_fold_total]
    simp [profile_total]
  constructor
  · intro hcov
    refine ⟨_, hgw, ?_⟩
    rw [htot]
    refine zip_ite_sum_full mw uw' hlen'.symm ?_
    intro k hk hempty
    have hk' : k < mw.length := by rwa [hlen'] at hk
    exact (hchar' k hk').mp hempty (hcov k hk')
  · rintro ⟨k, hk, hnc⟩
    refine ⟨_, hgw, ?_⟩
    rw [htot]
    exact zip_ite_sum_lt mw uw' hlen'.symm hpos
      ⟨k, by rwa [hlen'], (hchar' k hk).mpr hnc⟩

/-- C6 witness: a one-tick measure fully covered by one sounding note
accumulates exactly the array total; replacing the note by a rest leaves
the tick silent and accumulates strictly less. -/
theorem get_weight_total_witness :
    (∃ p, get_weight [1] [⟨5, 0, 1, 1⟩] = some p
      ∧ profile_total p = ([1] : List ℚ).sum)
    ∧ (∃ p, get_weight [1] [⟨-1, 0, 1, 1⟩] = some p
      ∧ profile_total p < ([1] : List ℚ).sum) := by
  constructor
  · refine (get_weight_total [1] [⟨5, 0, 1, 1⟩] ?_ ?_).1 ?_
    · intro q hq
      rw [List.mem_singleton] at hq
      subst hq
      norm_num
    · intro n hn _
      rw [List.mem_singleton] at hn
      subst hn
      refine ⟨by norm_num, by norm_num⟩
    · intro k hk
      have hk1 : k < 1 := by simpa using hk
      have hk0 : k = 0 := by omega
      subst hk0
      exact ⟨⟨5, 0, 1, 1⟩, List.mem_singleton_self _, by norm_num,
        by norm_num, by norm_num⟩
  · refine (get_weight_total [1] [⟨-1, 0, 1, 1⟩] ?_ ?_).2 ?_
    · intro q hq
      rw [List.mem_singleton] at hq
      subst hq
      norm_num
    · intro n hn hns
      rw [List.mem_singleton] at hn
      subst hn
      exact absurd rfl hns
    · refine ⟨0, by norm_num, ?_⟩
      rintro ⟨m, hm, hms, _⟩
      rw [List.mem_singleton] at hm
      subst hm
      exact hms rfl

/-- C2: the chord scorer applied to a WeightProfile with no active pitch
classes; the code evaluates `min(note_weight.keys())` on an empty dict,
which raises `ValueError` (modelled by `none`) instead of returning an
empty ranked list. -/
theorem sort_chord_transpositions_empty :
    sort_chord_transpositions [] = none := rfl

attribute [local semireducible] Rat.add Rat.mul Rat.inv Rat.sub in
theorem c7_check_holds :
    c7_check (sort_chord_transpositions [(0, 1), (4, 1), (7, 1)]) = true := by
  decide

theorem c7_extract {res : Option (List Assumption)}
    (h : c7_check res = true) :
    ∃ tl, res = some ((⟨"maj3", 0, 3, [0]⟩ : Assumption) :: tl)
      ∧ ∀ a ∈ tl, a.weight < 3 := by
  match res with
  | none => exact absurd h (by simp [c7_check])
  | some [] => exact absurd h (by simp [c7_check])
  | some (top :: tl) =>
    unfold c7_check at h
    rw [Bool.and_eq_true, decide_eq_true_eq, List.all_eq_true] at h
    refine ⟨tl, by rw [h.1], ?_⟩
    intro a ha
    have := h.2 a ha
    rwa [decide_eq_true_eq] at this

theorem mul_pos_iff_right {c w : ℚ} (hc : 0 < c) : 0 < c * w ↔ 0 < w := by
  constructor
  · intro h
    by_contra hneg
    push_neg at hneg
    nlinarith
  · intro h
    exact mul_pos hc h

theorem nw_get_scale (c : ℚ) (nw : List (Int × ℚ)) (k : Int) :
    nw_get (scale_profile c nw) k = c * nw_get nw k := by
  induction nw with
  | nil => simp [nw_get, scale_profile]
  | cons p nw ih =>
    unfold scale_profile at ih ⊢
    rw [List.map_cons]
    unfold nw_get
    by_cases hk : p.1 = k
    · rw [if_pos hk, if_pos hk]
    · rw [if_neg hk, if_neg hk]
      exact ih

theorem trans_weight_scale (c : ℚ) (nw : List (Int × ℚ))
    (order : List Int) (offset : Int) :
    trans_weight (scale_profile c nw) order offset
      = c * trans_weight nw order offset := by
  unfold trans_weight
  suffices h : ∀ w0 : ℚ, order.foldl
      (fun w s => w + nw_get (scale_profile c nw) (offset + s)) (c * w0)
      = c * order.foldl (fun w s => w + nw_get nw (offset + s)) w0 by
    simpa using h 0
  induction order with
  | nil => intro w0; simp
  | cons s order ih =>
    intro w0
    simp only [List.foldl_cons]
    rw [nw_get_scale,
      show c * w0 + c * nw_get nw (offset + s)
        = c * (w0 + nw_get nw (offset + s)) by ring]
    exact ih _

theorem upsert_scale (c : ℚ) (hc : c ≠ 0) (r : Int) (w : ℚ)
    (chName : String) (idx : Nat) :
    ∀ m : List ((Int × ℚ) × Assumption),
      upsert_assumption (r, c * w) chName idx (m.map (scale_entry c))
        = (upsert_assumption (r, w) chName idx m).map (scale_entry c) := by
  intro m
  induction m with
  | nil =>
    simp [upsert_assumption, scale_entry, scale_assumption]
  | cons e m ih =>
    rw [List.map_cons]
    unfold upsert_assumption
    by_cases he : e.1 = (r, w)
    · rw [if_pos (show (scale_entry c e).1 = (r, c * w) by
        show (e.1.1, c * e.1.2) = (r, c * w)
        rw [he]), if_pos he, List.map_cons]
      rfl
    · rw [if_neg (show ¬(scale_entry c e).1 = (r, c * w) by
        intro hcon
        replace hcon : (e.1.1, c * e.1.2) = (r, c * w) := hcon
        rw [Prod.mk.injEq] at hcon
        exact he (Prod.ext hcon.1 (mul_left_cancel₀ hc hcon.2))),
        if_neg he, List.map_cons, ih]

theorem score_offsets_scale (c : ℚ) (hc : 0 < c) (nw : List (Int × ℚ))
    (t : Transposition) :
    ∀ (offsets : List Int) (m : List ((Int × ℚ) × Assumption)),
      offsets.foldl (fun m2 offset =>
        if 0 < trans_weight (scale_profile c nw) t.order offset then
          upsert_assumption
            (offset + order_neg_idx t.order t.idx,
              trans_weight (scale_profile c nw) t.order offset)
            t.chordName t.idx m2
        else m2) (m.map (scale_entry c))
      = (offsets.foldl (fun m2 offset =>
          if 0 < trans_weight nw t.order offset then
            upsert_assumption
              (offset + order_neg_idx t.order t.idx,
                trans_weight nw t.order offset)
              t.chordName t.idx m2
          else m2) m).map (scale_entry c) := by
  intro offsets
  induction offsets with
  | nil => intro m; rfl
  | cons o offsets ih =>
    intro m
    simp only [List.foldl_cons]
    rw [trans_weight_scale]
    by_cases hw : 0 < trans_weight nw t.order o
    · rw [if_pos ((mul_pos_iff_right hc).mpr hw), if_pos hw,
        upsert_scale c (ne_of_gt hc) _ _ _ _ m]
      exact ih _
    · rw [if_neg (fun hcon => hw ((mul_pos_iff_right hc).mp hcon)),
        if_neg hw]
      exact ih m

theorem score_chord_scale (c : ℚ) (hc : 0 < c) (nw : List (Int × ℚ))
    (mn mx : Int) (trs : List Transposition) :
    score_chord (scale_profile c nw) mn mx trs
      = (score_chord nw mn mx trs).map (scale_assumption c) := by
  unfold score_chord
  suffices h : ∀ m : List ((Int × ℚ) × Assumption),
      trs.foldl (fun m t =>
        (int_range (mn - t.order.getLastD 0) (mx + 1)).foldl
          (fun m2 offset =>
            if 0 < trans_weight (scale_profile c nw) t.order offset then
              upsert_assumption
                (offset + order_neg_idx t.order t.idx,
                  trans_weight (scale_profile c nw) t.order offset)
                t.chordName t.idx m2
            else m2) m) (m.map (scale_entry c))
      = (trs.foldl (fun m t =>
          (int_range (mn - t.order.getLastD 0) (mx + 1)).foldl
            (fun m2 offset =>
              if 0 < trans_weight nw t.order offset then
                upsert_assumption
                  (offset + order_neg_idx t.order t.idx,
                    trans_weight nw t.order offset)
                  t.chordName t.idx m2
              else m2) m) m).map (scale_entry c) by
    have h0 := h []
    rw [show (([] : List ((Int × ℚ) × Assumption)).map (scale_entry c))
      = [] from rfl] at h0
    rw [h0, List.map_map, List.map_map]
    rfl
  induction trs with
  | nil => intro m; rfl
  | cons t trs ih =>
    intro m
    simp only [List.foldl_cons]
    rw [score_offsets_scale c hc nw t]
    exact ih _

theorem insert_desc_scale (c : ℚ) (hc : 0 < c) (a : Assumption) :
    ∀ l : List Assumption,
      insert_desc (scale_assumption c a) (l.map (scale_assumption c))
        = (insert_desc a l).map (scale_assumption c) := by
  intro l
  induction l with
  | nil => rfl
  | cons b l ih =>
    rw [List.map_cons]
    unfold insert_desc
    by_cases hw : b.weight < a.weight
    · rw [if_pos (show (scale_assumption c b).weight
          < (scale_assumption c a).weight from
          (mul_lt_mul_left hc).mpr hw), if_pos hw, List.map_cons,
        List.map_cons]
    · rw [if_neg (show ¬(scale_assumption c b).weight
          < (scale_assumption c a).weight from
          fun hcon => hw ((mul_lt_mul_left hc).mp hcon)), if_neg hw,
        List.map_cons, ih]

theorem sort_desc_scale (c : ℚ) (hc : 0 < c) :
    ∀ (l acc : List Assumption),
      (l.map (scale_assumption c)).foldl (fun acc a => insert_desc a acc)
          (acc.map (scale_assumption c))
        = (l.foldl (fun acc a => insert_desc a acc) acc).map
            (scale_assumption c) := by
  intro l
  induction l with
  | nil => intro acc; rfl
  | cons a l ih =>
    intro acc
    rw [List.map_cons]
    simp only [List.foldl_cons]
    rw [insert_desc_scale c hc]
    exact ih _

theorem scale_profile_keys (c : ℚ) (nw : List (Int × ℚ)) :
    (scale_profile c nw).map Prod.fst = nw.map Prod.fst := by
  unfold scale_profile
  rw [List.map_map]
  rfl

theorem sort_chord_transpositions_scale (c : ℚ) (hc : 0 < c) :
    ∀ nw : List (Int × ℚ),
      sort_chord_transpositions (scale_profile c nw)
        = (sort_chord_transpositions nw).map
            (List.map (scale_assumption c)) := by
  intro nw
  match nw with
  | [] => rfl
  | p :: tl =>
    show some (sort_desc ((Chord.chords.map fun ch =>
        score_chord (scale_profile c (p :: tl))
          (list_min ((scale_profile c (p :: tl)).map Prod.fst))
          (list_max ((scale_profile c (p :: tl)).map Prod.fst))
          ch.2).flatten))
      = some ((sort_desc ((Chord.chords.map fun ch =>
          score_chord (p :: tl) (list_min ((p :: tl).map Prod.fst))
            (list_max ((p :: tl).map Prod.fst)) ch.2).flatten)).map
          (scale_assumption c))
    rw [scale_profile_keys]
    refine congrArg _ ?_
    have hflat : ((Chord.chords.map fun ch =>
        score_chord (scale_profile c (p :: tl))
          (list_min ((p :: tl).map Prod.fst))
          (list_max ((p :: tl).map Prod.fst)) ch.2).flatten)
        = ((Chord.chords.map fun ch =>
            score_chord (p :: tl) (list_min ((p :: tl).map Prod.fst))
              (list_max ((p :: tl).map Prod.fst)) ch.2).flatten).map
          (scale_assumption c) := by
      rw [List.map_flatten, List.map_map]
      refine congrArg _ ?_
      refine List.map_congr_left ?_
      intro ch _
      exact score_chord_scale c hc (p :: tl) _ _ ch.2
    rw [hflat]
    have hsd := sort_desc_scale c hc
      ((Chord.chords.map fun ch =>
        score_chord (p :: tl) (list_min ((p :: tl).map Prod.fst))
          (list_max ((p :: tl).map Prod.fst)) ch.2).flatten) []
    unfold sort_desc
    rw [show (([] : List Assumption).map (scale_assumption c)) = []
      from rfl] at hsd
    exact hsd

/-- C7: scoring a WeightProfile that assigns one equal strictly positive
weight `c` to exactly the pitch classes 0, 4 and 7 ranks the major-triad
root-position Assumption with root pitch 0 (weight `3c`, contributed by
inversion index 0) first, strictly above every other Assumption. -/
theorem sort_chord_maj3_top (c : ℚ) (hc : 0 < c) :
    ∃ tl, sort_chord_transpositions [(0, c), (4, c), (7, c)]
        = some ((⟨"maj3", 0, 3 * c, [0]⟩ : Assumption) :: tl)
      ∧ ∀ a ∈ tl, a.weight < 3 * c := by
  obtain ⟨tl, h1, h2⟩ := c7_extract c7_check_holds
  have hscale := sort_chord_transpositions_scale c hc [(0, 1), (4, 1), (7, 1)]
  rw [h1] at hscale
  have hkey : scale_profile c [(0, 1), (4, 1), (7, 1)]
      = [(0, c), (4, c), (7, c)] := by
    simp [scale_profile]
  rw [hkey] at hscale
  refine ⟨tl.map (scale_assumption c), ?_, ?_⟩
  · rw [hscale, Option.map_some', List.map_cons]
    have hhead : scale_assumption c ⟨"maj3", 0, 3, [0]⟩
        = ⟨"maj3", 0, 3 * c, [0]⟩ := by
      simp [scale_assumption, mul_comm]
    rw [hhead]
  · intro a ha
    rw [List.mem_map] at ha
    obtain ⟨b, hb, rfl⟩ := ha
    have hlt := h2 b hb
    show c * b.weight < 3 * c
    calc c * b.weight < c * 3 := (mul_lt_mul_left hc).mpr hlt
    _ = 3 * c := mul_comm c 3

/-- C7 witness: the ranking theorem applied at weight 1. -/
theorem sort_chord_maj3_top_witness :
    ∃ tl, sort_chord_transpositions [(0, (1 : ℚ)), (4, 1), (7, 1)]
        = some ((⟨"maj3", 0, 3 * 1, [0]⟩ : Assumption) :: tl)
      ∧ ∀ a ∈ tl, a.weight < 3 * 1 :=
  sort_chord_maj3_top 1 (by norm_num)
